import Mathlib

/-!
Verification development for the 4ebur-net MITM proxy (Go).

This file gives a shallow embedding of the parts of the source relevant to
the HTTP response cache (internal/cache/http_cache.go), the certificate
manager (internal/cert/manager.go) and the request forwarding paths
(internal/proxy/server.go), and proves or refutes the specified properties.

Conventions of the embedding:
* Go `time.Time` instants and `time.Duration` values are modelled as `Int`
  nanoseconds (`time.Duration` is an `int64` nanosecond count in Go); where
  int64 overflow is reachable the arithmetic is wrapped explicitly.
* Go `http.Header` is an association list from canonical header keys to
  value lists; `Header.get` mirrors `http.Header.Get` (first value of the
  key, or the empty string).
* Go maps (`map[string]*CacheEntry`, `sync.Map`) are association lists with
  in-place replacement on update; Go's unspecified map iteration order is
  determinized to list order (the spec allows any deterministic tie-break).
* Byte slices are `List Nat` with each element < 256.
-/

namespace FourEburNet

/-- Go `http.Header`: association list from canonical header keys to lists
of values (Go stores one entry per canonical key; the list form also lets us
talk about degenerate states such as an empty value list). -/
abbrev Header := List (String × List String)

namespace Header

/-- Go `http.Header.Get`: the first value stored under the key, or `""` when
the key is absent or has no values. -/
def get (h : Header) (k : String) : String :=
  match h.lookup k with
  | some (v :: _) => v
  | some [] => ""
  | none => ""

/-- Go `http.Header.Del`: remove the (canonical) key. -/
def del (h : Header) (k : String) : Header :=
  h.filter (fun p => p.1 ≠ k)

/-- Whether the header map has an entry for the key (the key is present,
regardless of its value). -/
def hasKey (h : Header) (k : String) : Bool :=
  h.any (fun p => p.1 == k)

end Header

/-- Go `strings.Contains`, on character lists: some suffix of `s` starts with
`sub`. -/
def containsAux (sub : List Char) : List Char → Bool
  | [] => sub.isPrefixOf ([] : List Char)
  | c :: rest => sub.isPrefixOf (c :: rest) || containsAux sub rest

/-- Go `strings.Contains s sub`. -/
def goContains (s sub : String) : Bool :=
  containsAux sub.data s.data

/-- Go `strings.HasPrefix`. -/
def goHasPrefix (s pre : String) : Bool :=
  pre.data.isPrefixOf s.data

/-! ## The HTTP response cache (internal/cache/http_cache.go) -/

/-- Source type `CacheEntry`: a cached HTTP response.  `cachedAt` and
`expireAt` are instants in nanoseconds; `size` is the Go `int64` field. -/
structure CacheEntry where
  statusCode : Int
  headers : Header
  body : List Nat
  cachedAt : Int
  expireAt : Int
  size : Int
deriving DecidableEq, Repr

/-- Source type `HTTPCache` (its pure state: the map, the size accounting and
the statistics counters; the mutex only serializes access and has no
sequential content). -/
structure HTTPCache where
  entries : List (String × CacheEntry)
  maxSize : Int
  currentSize : Int
  maxAge : Int
  hitCount : Nat
  missCount : Nat
deriving DecidableEq, Repr

/-- Go map assignment `m[k] = e`: replace in place when the key is present,
otherwise append. -/
def mapInsert (l : List (String × CacheEntry)) (k : String) (e : CacheEntry) :
    List (String × CacheEntry) :=
  if l.any (fun p => p.1 == k) then
    l.map (fun p => if p.1 == k then (k, e) else p)
  else
    l ++ [(k, e)]

/-- Go `delete(m, k)`. -/
def mapDelete (l : List (String × CacheEntry)) (k : String) :
    List (String × CacheEntry) :=
  l.filter (fun p => p.1 ≠ k)

/-- Source `NewHTTPCache`: zero `maxSize` defaults to 100 MiB, zero `maxAge`
defaults to 5 minutes (nanoseconds). -/
def newHTTPCache (maxSize maxAge : Int) : HTTPCache :=
  { entries := []
    maxSize := if maxSize = 0 then 100 * 1024 * 1024 else maxSize
    currentSize := 0
    maxAge := if maxAge = 0 then 5 * 60 * 1000000000 else maxAge
    hitCount := 0
    missCount := 0 }

/-- Source `HTTPCache.Get` at instant `now` (the `time.Now()` read): returns
the entry on a non-expired hit, and the updated cache state (hit/miss
counters are the only mutation; `uint64` counters wrap at `2 ^ 64`). -/
def HTTPCache.get (c : HTTPCache) (key : String) (now : Int) :
    Option CacheEntry × HTTPCache :=
  match c.entries.lookup key with
  | none => (none, { c with missCount := (c.missCount + 1) % 2 ^ 64 })
  | some entry =>
    if now > entry.expireAt then
      (none, { c with missCount := (c.missCount + 1) % 2 ^ 64 })
    else
      (some entry, { c with hitCount := (c.hitCount + 1) % 2 ^ 64 })

/-- The body of the scan in source `HTTPCache.evictLRU`: the running `oldest`
candidate is replaced exactly when `entry.CachedAt.Before(oldest.CachedAt)`
(strict), so the first entry encountered among equal timestamps wins. -/
def findOldest (best : Option (String × CacheEntry)) :
    List (String × CacheEntry) → Option (String × CacheEntry)
  | [] => best
  | p :: rest =>
    match best with
    | none => findOldest (some p) rest
    | some b =>
      if p.2.cachedAt < b.2.cachedAt then findOldest (some p) rest
      else findOldest (some b) rest

/-- Helper: a found oldest entry is a member of the list (or was the running
candidate). -/
theorem findOldest_mem (l : List (String × CacheEntry)) :
    ∀ (best : Option (String × CacheEntry)) (p : String × CacheEntry),
      findOldest best l = some p → p ∈ l ∨ best = some p := by
  induction l with
  | nil => intro best p h; right; simpa [findOldest] using h
  | cons q rest ih =>
    intro best p h
    match best with
    | none =>
      rcases ih (some q) p (by simpa [findOldest] using h) with hm | hb
      · exact Or.inl (List.mem_cons_of_mem _ hm)
      · exact Or.inl (by simp_all)
    | some b =>
      by_cases hlt : q.2.cachedAt < b.2.cachedAt
      · rcases ih (some q) p (by simpa [findOldest, hlt] using h) with hm | hb
        · exact Or.inl (List.mem_cons_of_mem _ hm)
        · exact Or.inl (by simp_all)
      · rcases ih (some b) p (by simpa [findOldest, hlt] using h) with hm | hb
        · exact Or.inl (List.mem_cons_of_mem _ hm)
        · exact Or.inr hb

/-- Helper: deleting the key of a member strictly shrinks the list. -/
theorem mapDelete_length_lt {l : List (String × CacheEntry)}
    {p : String × CacheEntry} (hp : p ∈ l) :
    (mapDelete l p.1).length < l.length := by
  exact List.length_filter_lt_length_iff_exists.mpr ⟨p, hp, by simp⟩

/-- Helper: on a nonempty list the oldest-entry scan finds something. -/
theorem findOldest_isSome (l : List (String × CacheEntry)) :
    ∀ best : Option (String × CacheEntry), l ≠ [] ∨ best.isSome →
      (findOldest best l).isSome := by
  induction l with
  | nil =>
    intro best h
    rcases h with h | h
    · exact absurd rfl h
    · simpa [findOldest] using h
  | cons q rest ih =>
    intro best _
    match best with
    | none => exact ih (some q) (Or.inr rfl)
    | some b =>
      by_cases hlt : q.2.cachedAt < b.2.cachedAt <;>
        simp only [findOldest, hlt, if_true, if_false] <;>
        [exact ih (some q) (Or.inr rfl); exact ih (some b) (Or.inr rfl)]

/-- The loop of source `HTTPCache.evictLRU`, with an explicit iteration
bound: while room is still `needed` and the map is nonempty, find the entry
with the smallest `CachedAt`, subtract its size from the current size and
from `needed`, and delete it.  Each iteration deletes one entry, so the Go
loop runs at most `entries.length` times; `HTTPCache.evictLRU` below passes
that bound, and `evictLoopFuel_irrel` proves the bound is not restrictive. -/
def evictLoopFuel : Nat → List (String × CacheEntry) → Int → Int →
    List (String × CacheEntry) × Int
  | 0, entries, currentSize, _ => (entries, currentSize)
  | fuel + 1, entries, currentSize, needed =>
    if needed > 0 ∧ entries ≠ [] then
      match findOldest none entries with
      | some p =>
        evictLoopFuel fuel (mapDelete entries p.1) (currentSize - p.2.size)
          (needed - p.2.size)
      | none => (entries, currentSize)
    else
      (entries, currentSize)

/-- Source `HTTPCache.evictLRU` acting on the map and size counter. -/
def HTTPCache.evictLRU (entries : List (String × CacheEntry))
    (currentSize needed : Int) : List (String × CacheEntry) × Int :=
  evictLoopFuel entries.length entries currentSize needed

/-- Any iteration bound at least `entries.length` yields the same result as
`entries.length` does: the explicit bound in `evictLoopFuel` never cuts the
source loop short. -/
theorem evictLoopFuel_irrel :
    ∀ (fuel : Nat) (l : List (String × CacheEntry)) (cs n : Int),
      l.length ≤ fuel → evictLoopFuel fuel l cs n = evictLoopFuel (fuel + 1) l cs n := by
  intro fuel
  induction fuel with
  | zero =>
    intro l cs n hlen
    have : l = [] := List.length_eq_zero.mp (Nat.le_zero.mp hlen)
    subst this
    simp [evictLoopFuel]
  | succ f ih =>
    intro l cs n hlen
    by_cases hc : n > 0 ∧ l ≠ []
    · have hsome := findOldest_isSome l none (Or.inl hc.2)
      rcases Option.isSome_iff_exists.mp hsome with ⟨p, hp⟩
      have hmem : p ∈ l := by
        rcases findOldest_mem l none p hp with hm | hb
        · exact hm
        · cases hb
      have hdel : (mapDelete l p.1).length ≤ f :=
        Nat.lt_succ_iff.mp (Nat.lt_of_lt_of_le (mapDelete_length_lt hmem) hlen)
      simp only [evictLoopFuel]
      rw [if_pos hc, if_pos hc, hp]
      exact ih (mapDelete l p.1) (cs - p.2.size) (n - p.2.size) hdel
    · simp [evictLoopFuel, hc]

/-- Source `HTTPCache.Set`: evict when `currentSize + entry.Size > maxSize`,
subtract a replaced entry's size, then store the entry. -/
def HTTPCache.set (c : HTTPCache) (key : String) (entry : CacheEntry) : HTTPCache :=
  let st :=
    if c.currentSize + entry.size > c.maxSize then
      HTTPCache.evictLRU c.entries c.currentSize entry.size
    else
      (c.entries, c.currentSize)
  let afterOld :=
    match st.1.lookup key with
    | some old => st.2 - old.size
    | none => st.2
  { c with entries := mapInsert st.1 key entry, currentSize := afterOld + entry.size }

/-- Source `HTTPCache.Delete`. -/
def HTTPCache.delete (c : HTTPCache) (key : String) : HTTPCache :=
  match c.entries.lookup key with
  | some entry =>
    { c with entries := mapDelete c.entries key, currentSize := c.currentSize - entry.size }
  | none => c

/-- Source `HTTPCache.Clear`. -/
def HTTPCache.clear (c : HTTPCache) : HTTPCache :=
  { c with entries := [], currentSize := 0 }

/-- Source `HTTPCache.Stats`: `(hits, misses, size, entries)`. -/
def HTTPCache.stats (c : HTTPCache) : Nat × Nat × Int × Nat :=
  (c.hitCount, c.missCount, c.currentSize, c.entries.length)

/-- One tick of source `HTTPCache.cleanupExpired` at instant `now`: every
entry with `now.After(entry.ExpireAt)` is removed and its size subtracted. -/
def HTTPCache.cleanupExpired (c : HTTPCache) (now : Int) : HTTPCache :=
  { c with
    entries := c.entries.filter (fun p => ¬ now > p.2.expireAt)
    currentSize :=
      c.currentSize -
        ((c.entries.filter (fun p => now > p.2.expireAt)).map (fun p => p.2.size)).sum }

/-- The interval of the `time.NewTicker` driving `cleanupExpired`,
in nanoseconds (source: `1 * time.Minute`). -/
def cleanupIntervalNs : Int := 60 * 1000000000

/-! ## Size accounting for the cache bound -/

/-- The sum of the sizes of the stored entries. -/
def entriesSize (l : List (String × CacheEntry)) : Int :=
  (l.map (fun p => p.2.size)).sum

/-- Well-formedness of a cache state: the size counter equals the sum of the
stored sizes, stored sizes are nonnegative, and keys are distinct (as they
are in a Go map). -/
def HTTPCache.WF (c : HTTPCache) : Prop :=
  c.currentSize = entriesSize c.entries ∧
  (∀ p ∈ c.entries, 0 ≤ p.2.size) ∧
  (c.entries.map Prod.fst).Nodup

theorem lookup_eq_none_iff {l : List (String × CacheEntry)} {k : String} :
    l.lookup k = none ↔ ∀ p ∈ l, p.1 ≠ k := by
  induction l with
  | nil => simp
  | cons q t ih =>
    by_cases hq : k = q.1
    · subst hq
      simp [List.lookup]
    · have hbeq : (k == q.1) = false := by simpa [beq_iff_eq] using hq
      simp only [List.lookup, hbeq, ne_eq, List.mem_cons]
      constructor
      · intro h p hp
        rcases hp with rfl | hp
        · exact fun hk => hq hk.symm
        · exact ih.mp h p hp
      · intro h
        exact ih.mpr fun p hp => h p (Or.inr hp)

theorem mapDelete_eq_self {l : List (String × CacheEntry)} {k : String}
    (h : ∀ p ∈ l, p.1 ≠ k) : mapDelete l k = l := by
  induction l with
  | nil => rfl
  | cons q t ih =>
    have hq : q.1 ≠ k := h q (List.mem_cons_self _ _)
    simp only [mapDelete, List.filter_cons]
    rw [if_pos (by simpa using hq)]
    have := ih fun p hp => h p (List.mem_cons_of_mem _ hp)
    simpa [mapDelete] using this

theorem entriesSize_mapDelete_of_mem {l : List (String × CacheEntry)}
    {k : String} {e : CacheEntry} (hnd : (l.map Prod.fst).Nodup)
    (hm : (k, e) ∈ l) :
    entriesSize (mapDelete l k) = entriesSize l - e.size := by
  induction l with
  | nil => cases hm
  | cons q t ih =>
    rcases List.mem_cons.mp hm with rfl | hm
    · have hnk : ∀ p ∈ t, p.1 ≠ k := by
        intro p hp
        have := (List.nodup_cons.mp hnd).1
        intro hpk
        exact this (by simpa [hpk.symm] using List.mem_map_of_mem Prod.fst hp)
      simp only [mapDelete, List.filter_cons]
      rw [if_neg (by simp)]
      rw [show List.filter (fun p => decide (p.1 ≠ k)) t = mapDelete t k from rfl,
        mapDelete_eq_self hnk]
      simp [entriesSize]
    · have hq : q.1 ≠ k := by
        have := (List.nodup_cons.mp hnd).1
        intro hpk
        exact this (by simpa [hpk] using List.mem_map_of_mem Prod.fst hm)
      simp only [mapDelete, List.filter_cons]
      rw [if_pos (by simpa using hq)]
      have := ih (List.nodup_cons.mp hnd).2 hm
      simp only [mapDelete] at this
      simp [entriesSize, this, entriesSize] at *
      omega

theorem lookup_mem {l : List (String × CacheEntry)} {k : String} {e : CacheEntry}
    (h : l.lookup k = some e) : (k, e) ∈ l := by
  induction l with
  | nil => cases h
  | cons q t ih =>
    by_cases hq : k = q.1
    · subst hq
      simp only [List.lookup, beq_self_eq_true, if_true] at h
      cases h
      exact List.mem_cons_self _ _
    · have hbeq : (k == q.1) = false := by simpa [beq_iff_eq] using hq
      simp only [List.lookup, hbeq] at h
      exact List.mem_cons_of_mem _ (ih h)

/-- The eviction loop returns a sublist of the map, keeps the size counter
equal to the sum of stored sizes, and stops only once it has freed at least
`needed` bytes or emptied the map. -/
theorem evictLoopFuel_spec :
    ∀ (fuel : Nat) (l : List (String × CacheEntry)) (cs n : Int),
      l.length ≤ fuel →
      (l.map Prod.fst).Nodup →
      cs = entriesSize l →
      (evictLoopFuel fuel l cs n).1.Sublist l ∧
        (evictLoopFuel fuel l cs n).2 = entriesSize (evictLoopFuel fuel l cs n).1 ∧
        (n ≤ cs - (evictLoopFuel fuel l cs n).2 ∨ (evictLoopFuel fuel l cs n).1 = []) := by
  intro fuel
  induction fuel with
  | zero =>
    intro l cs n hlen hnd hcs
    have : l = [] := List.length_eq_zero.mp (Nat.le_zero.mp hlen)
    subst this
    simpa [evictLoopFuel] using hcs
  | succ f ih =>
    intro l cs n hlen hnd hcs
    by_cases hc : n > 0 ∧ l ≠ []
    · have hsome := findOldest_isSome l none (Or.inl hc.2)
      rcases Option.isSome_iff_exists.mp hsome with ⟨p, hp⟩
      have hmem : p ∈ l := by
        rcases findOldest_mem l none p hp with hm | hb
        · exact hm
        · cases hb
      have hdel : (mapDelete l p.1).length ≤ f :=
        Nat.lt_succ_iff.mp (Nat.lt_of_lt_of_le (mapDelete_length_lt hmem) hlen)
      have hsub : (mapDelete l p.1).Sublist l := List.filter_sublist l
      have hnd2 : ((mapDelete l p.1).map Prod.fst).Nodup :=
        List.Nodup.sublist (List.Sublist.map Prod.fst hsub) hnd
      have hcs2 : cs - p.2.size = entriesSize (mapDelete l p.1) := by
        have := entriesSize_mapDelete_of_mem (k := p.1) (e := p.2) hnd (by simpa using hmem)
        omega
      have hr := ih (mapDelete l p.1) (cs - p.2.size) (n - p.2.size) hdel hnd2 hcs2
      have hunfold : evictLoopFuel (f + 1) l cs n =
          evictLoopFuel f (mapDelete l p.1) (cs - p.2.size) (n - p.2.size) := by
        simp only [evictLoopFuel]
        rw [if_pos hc, hp]
      rw [hunfold]
      refine ⟨hr.1.trans hsub, hr.2.1, ?_⟩
      rcases hr.2.2 with hfree | hempty
      · exact Or.inl (by omega)
      · exact Or.inr hempty
    · have hunfold : evictLoopFuel (f + 1) l cs n = (l, cs) := by
        simp only [evictLoopFuel]
        rw [if_neg hc]
      rw [hunfold]
      refine ⟨List.Sublist.refl l, hcs, ?_⟩
      by_cases hn : n > 0
      · exact Or.inr (by tauto)
      · exact Or.inl (by omega)

theorem anyKey_iff {l : List (String × CacheEntry)} {k : String} :
    l.any (fun p => p.1 == k) = true ↔ ∃ p ∈ l, p.1 = k := by
  simp [List.any_eq_true, beq_iff_eq]

theorem replaceMap_eq_self {l : List (String × CacheEntry)} {k : String}
    {e : CacheEntry} (h : ∀ p ∈ l, p.1 ≠ k) :
    l.map (fun p => if p.1 == k then (k, e) else p) = l := by
  induction l with
  | nil => rfl
  | cons q t ih =>
    simp only [List.map_cons]
    rw [if_neg (by simpa [beq_iff_eq] using h q (List.mem_cons_self _ _)),
      ih fun p hp => h p (List.mem_cons_of_mem _ hp)]

theorem entriesSize_mapInsert_absent {l : List (String × CacheEntry)}
    {k : String} {e : CacheEntry} (h : l.any (fun p => p.1 == k) = false) :
    entriesSize (mapInsert l k e) = entriesSize l + e.size := by
  simp [mapInsert, h, entriesSize]

theorem entriesSize_mapInsert_present {l : List (String × CacheEntry)}
    {k : String} {old e : CacheEntry} (hnd : (l.map Prod.fst).Nodup)
    (hl : l.lookup k = some old) :
    entriesSize (mapInsert l k e) = entriesSize l - old.size + e.size := by
  induction l with
  | nil => cases hl
  | cons q t ih =>
    have hany : (q :: t).any (fun p => p.1 == k) = true := by
      refine anyKey_iff.mpr ⟨(k, old), lookup_mem hl, rfl⟩
    by_cases hq : k = q.1
    · subst hq
      simp only [List.lookup, beq_self_eq_true] at hl
      cases hl
      have hnk : ∀ p ∈ t, p.1 ≠ q.1 := by
        intro p hp hpk
        exact (List.nodup_cons.mp hnd).1
          (by simpa [hpk] using List.mem_map_of_mem Prod.fst hp)
      have hself : (q.1 == q.1) = true := by simp
      simp only [mapInsert, hany, if_true, List.map_cons]
      rw [if_pos hself, replaceMap_eq_self hnk]
      simp [entriesSize]
      omega
    · have hbeq : (k == q.1) = false := by simpa [beq_iff_eq] using hq
      simp only [List.lookup, hbeq] at hl
      have hmem : (k, old) ∈ t := lookup_mem hl
      have hanyt : t.any (fun p => p.1 == k) = true :=
        anyKey_iff.mpr ⟨(k, old), hmem, rfl⟩
      have ihs := ih (List.nodup_cons.mp hnd).2 hl
      simp only [mapInsert, hanyt, if_true] at ihs
      simp only [mapInsert, hany, if_true, List.map_cons]
      rw [if_neg (by simpa [beq_iff_eq] using fun hqk => hq hqk.symm)]
      simp only [entriesSize, List.map_cons, List.sum_cons] at ihs ⊢
      omega

theorem keys_mapInsert_present {l : List (String × CacheEntry)} {k : String}
    {e : CacheEntry} (h : l.any (fun p => p.1 == k) = true) :
    (mapInsert l k e).map Prod.fst = l.map Prod.fst := by
  simp only [mapInsert, h, if_true, List.map_map]
  refine List.map_congr_left ?_
  intro p _
  by_cases hp : p.1 = k
  · simp [hp]
  · simp [hp]

theorem keys_mapInsert_absent {l : List (String × CacheEntry)} {k : String}
    {e : CacheEntry} (h : l.any (fun p => p.1 == k) = false) :
    (mapInsert l k e).map Prod.fst = l.map Prod.fst ++ [k] := by
  simp [mapInsert, h]

theorem anyKey_eq_false_iff {l : List (String × CacheEntry)} {k : String} :
    l.any (fun p => p.1 == k) = false ↔ ∀ p ∈ l, p.1 ≠ k := by
  rw [Bool.eq_false_iff]
  constructor
  · intro h p hp hpk
    exact h (anyKey_iff.mpr ⟨p, hp, hpk⟩)
  · intro h hc
    rcases anyKey_iff.mp hc with ⟨p, hp, hpk⟩
    exact h p hp hpk

/-- Inserting into a map with distinct keys keeps the keys distinct. -/
theorem keys_nodup_mapInsert {l : List (String × CacheEntry)} {k : String}
    {e : CacheEntry} (hnd : (l.map Prod.fst).Nodup) :
    ((mapInsert l k e).map Prod.fst).Nodup := by
  by_cases hany : l.any (fun p => p.1 == k) = true
  · rwa [keys_mapInsert_present hany]
  · have hfalse : l.any (fun p => p.1 == k) = false := Bool.eq_false_iff.mpr hany
    rw [keys_mapInsert_absent hfalse]
    refine List.Nodup.append hnd (List.nodup_singleton k) ?_
    intro a ha hb2
    rcases List.mem_singleton.mp hb2 with rfl
    rcases List.mem_map.mp ha with ⟨p, hp, hpk⟩
    exact (anyKey_eq_false_iff.mp hfalse p hp) hpk

theorem sizes_nonneg_mapInsert {l : List (String × CacheEntry)} {k : String}
    {e : CacheEntry} (hl : ∀ p ∈ l, 0 ≤ p.2.size) (he : 0 ≤ e.size) :
    ∀ p ∈ mapInsert l k e, 0 ≤ p.2.size := by
  intro p hp
  by_cases h : l.any (fun p => p.1 == k) = true
  · simp only [mapInsert, h, if_true] at hp
    rcases List.mem_map.mp hp with ⟨q, hq, hqe⟩
    by_cases hqk : (q.1 == k) = true
    · rw [if_pos hqk] at hqe
      cases hqe
      exact he
    · rw [if_neg hqk] at hqe
      subst hqe
      exact hl q hq
  · have h2 : l.any (fun p => p.1 == k) = false := Bool.eq_false_iff.mpr h
    simp only [mapInsert, h2, Bool.false_eq_true, if_false] at hp
    rcases List.mem_append.mp hp with hq | hq
    · exact hl p hq
    · rcases List.mem_singleton.mp hq with rfl
      exact he

/-- Source `HTTPCache.Set` preserves well-formedness ∧ keeps the size
counter within `maxSize`, provided the new entry's size lies in
`[0, maxSize]`.  The maximum itself is never modified. -/
theorem set_preserves (c : HTTPCache) (k : String) (e : CacheEntry)
    (hwf : c.WF) (hbound : c.currentSize ≤ c.maxSize)
    (he0 : 0 ≤ e.size) (heM : e.size ≤ c.maxSize) :
    (c.set k e).WF ∧ (c.set k e).currentSize ≤ c.maxSize ∧
      (c.set k e).maxSize = c.maxSize := by
  obtain ⟨hcs, hpos, hnd⟩ := hwf
  have hmain : ∀ (l1 : List (String × CacheEntry)) (cs1 : Int),
      l1.Sublist c.entries → cs1 = entriesSize l1 → cs1 + e.size ≤ c.maxSize ->
      ((match l1.lookup k with
          | some old => cs1 - old.size
          | none => cs1) + e.size = entriesSize (mapInsert l1 k e) ∧
        (match l1.lookup k with
          | some old => cs1 - old.size
          | none => cs1) + e.size ≤ c.maxSize ∧
        (∀ p, p ∈ mapInsert l1 k e → 0 ≤ p.2.size) ∧
        ((mapInsert l1 k e).map Prod.fst).Nodup) := by
    intro l1 cs1 hsub hcs1 hb
    have hnd1 : (l1.map Prod.fst).Nodup :=
      List.Nodup.sublist (List.Sublist.map Prod.fst hsub) hnd
    have hpos1 : ∀ p, p ∈ l1 → 0 ≤ p.2.size := fun p hp => hpos p (hsub.mem hp)
    have hndi : ((mapInsert l1 k e).map Prod.fst).Nodup := keys_nodup_mapInsert hnd1
    rcases hl : l1.lookup k with _ | old
    · have hany : l1.any (fun p => p.1 == k) = false :=
        anyKey_eq_false_iff.mpr (lookup_eq_none_iff.mp hl)
      simp only [hl]
      refine ⟨?_, by omega, sizes_nonneg_mapInsert hpos1 he0, hndi⟩
      rw [entriesSize_mapInsert_absent hany]
      omega
    · have hold : 0 ≤ old.size := hpos1 (k, old) (lookup_mem hl)
      simp only [hl]
      have hsize : entriesSize (mapInsert l1 k e) = entriesSize l1 - old.size + e.size :=
        entriesSize_mapInsert_present hnd1 hl
      refine ⟨?_, ?_, sizes_nonneg_mapInsert hpos1 he0, hndi⟩
      · show cs1 - old.size + e.size = entriesSize (mapInsert l1 k e)
        omega
      · show cs1 - old.size + e.size ≤ c.maxSize
        omega
  by_cases hev : c.currentSize + e.size > c.maxSize
  · have hspec := evictLoopFuel_spec c.entries.length c.entries c.currentSize e.size
      (le_refl _) hnd hcs
    set r := evictLoopFuel c.entries.length c.entries c.currentSize e.size with hr
    have hb : r.2 + e.size ≤ c.maxSize := by
      rcases hspec.2.2 with hfree | hempty
      · omega
      · rw [hspec.2.1, hempty]
        simpa [entriesSize] using heM
    have hE : (c.set k e).entries = mapInsert r.1 k e := by
      simp only [HTTPCache.set, HTTPCache.evictLRU, if_pos hev]
    have hC : (c.set k e).currentSize = (match r.1.lookup k with
        | some old => r.2 - old.size
        | none => r.2) + e.size := by
      simp only [HTTPCache.set, HTTPCache.evictLRU, if_pos hev]
    have hM : (c.set k e).maxSize = c.maxSize := by
      simp only [HTTPCache.set]
    have h1 := hmain r.1 r.2 hspec.1 hspec.2.1 hb
    refine ⟨⟨?_, ?_, ?_⟩, ?_, hM⟩
    · rw [hC, hE]
      exact h1.1
    · exact hE ▸ h1.2.2.1
    · exact hE ▸ h1.2.2.2
    · rw [hC]
      exact h1.2.1
  · have hb : c.currentSize + e.size ≤ c.maxSize := by omega
    have hE : (c.set k e).entries = mapInsert c.entries k e := by
      simp only [HTTPCache.set, if_neg hev]
    have hC : (c.set k e).currentSize = (match c.entries.lookup k with
        | some old => c.currentSize - old.size
        | none => c.currentSize) + e.size := by
      simp only [HTTPCache.set, if_neg hev]
    have hM : (c.set k e).maxSize = c.maxSize := by
      simp only [HTTPCache.set]
    have h1 := hmain c.entries c.currentSize (List.Sublist.refl _) hcs hb
    refine ⟨⟨?_, ?_, ?_⟩, ?_, hM⟩
    · rw [hC, hE]
      exact h1.1
    · exact hE ▸ h1.2.2.1
    · exact hE ▸ h1.2.2.2
    · rw [hC]
      exact h1.2.1

theorem entriesSize_nonneg {l : List (String × CacheEntry)}
    (h : ∀ p ∈ l, 0 ≤ p.2.size) : 0 ≤ entriesSize l := by
  refine List.sum_nonneg ?_
  intro x hx
  rcases List.mem_map.mp hx with ⟨p, hp, rfl⟩
  exact h p hp

theorem entriesSize_filter_split (l : List (String × CacheEntry))
    (p : String × CacheEntry → Bool) :
    entriesSize (l.filter p) + entriesSize (l.filter (fun x => ! p x)) =
      entriesSize l := by
  induction l with
  | nil => simp [entriesSize]
  | cons q t ih =>
    by_cases h : p q = true
    · rw [List.filter_cons_of_pos h,
        List.filter_cons_of_neg (by simp [h])]
      simp only [entriesSize, List.map_cons, List.sum_cons] at ih ⊢
      omega
    · have h2 : p q = false := Bool.eq_false_iff.mpr h
      rw [List.filter_cons_of_neg (by simp [h2]),
        List.filter_cons_of_pos (by simp [h2])]
      simp only [entriesSize, List.map_cons, List.sum_cons] at ih ⊢
      omega

/-- Source `HTTPCache.Delete` preserves well-formedness and the size bound,
and never touches `maxSize`. -/
theorem delete_preserves (c : HTTPCache) (k : String)
    (hwf : c.WF) (hbound : c.currentSize ≤ c.maxSize) :
    (c.delete k).WF ∧ (c.delete k).currentSize ≤ c.maxSize ∧
      (c.delete k).maxSize = c.maxSize := by
  obtain ⟨hcs, hpos, hnd⟩ := hwf
  rcases hl : c.entries.lookup k with _ | e
  · have hid : c.delete k = c := by
      simp only [HTTPCache.delete, hl]
    rw [hid]
    exact ⟨⟨hcs, hpos, hnd⟩, hbound, rfl⟩
  · have hmem : (k, e) ∈ c.entries := lookup_mem hl
    have hsize := entriesSize_mapDelete_of_mem hnd hmem
    have hpose : 0 ≤ e.size := hpos (k, e) hmem
    have hsub : (mapDelete c.entries k).Sublist c.entries := List.filter_sublist _
    have hE : (c.delete k).entries = mapDelete c.entries k := by
      simp only [HTTPCache.delete, hl]
    have hC : (c.delete k).currentSize = c.currentSize - e.size := by
      simp only [HTTPCache.delete, hl]
    have hM : (c.delete k).maxSize = c.maxSize := by
      simp only [HTTPCache.delete, hl]
    refine ⟨⟨?_, ?_, ?_⟩, ?_, hM⟩
    · rw [hC, hE]
      omega
    · rw [hE]
      exact fun p hp => hpos p (hsub.mem hp)
    · rw [hE]
      exact List.Nodup.sublist (List.Sublist.map Prod.fst hsub) hnd
    · rw [hC]
      omega

/-- One sweep of source `HTTPCache.cleanupExpired` preserves well-formedness
and the size bound, and never touches `maxSize`. -/
theorem cleanup_preserves (c : HTTPCache) (now : Int)
    (hwf : c.WF) (hbound : c.currentSize ≤ c.maxSize) :
    (c.cleanupExpired now).WF ∧
      (c.cleanupExpired now).currentSize ≤ c.maxSize ∧
      (c.cleanupExpired now).maxSize = c.maxSize := by
  obtain ⟨hcs, hpos, hnd⟩ := hwf
  have hE : (c.cleanupExpired now).entries =
      c.entries.filter (fun p => ! decide (now > p.2.expireAt)) := by
    simp only [HTTPCache.cleanupExpired]
    refine List.filter_congr ?_
    intro x _
    rw [decide_not]
  have hC : (c.cleanupExpired now).currentSize =
      c.currentSize -
        entriesSize (c.entries.filter (fun p => decide (now > p.2.expireAt))) := by
    simp only [HTTPCache.cleanupExpired, entriesSize]
  have hM : (c.cleanupExpired now).maxSize = c.maxSize := rfl
  have hsplit := entriesSize_filter_split c.entries
    (fun p => decide (now > p.2.expireAt))
  have hsub : (c.entries.filter
      (fun p => ! decide (now > p.2.expireAt))).Sublist c.entries :=
    List.filter_sublist _
  have hrem : 0 ≤ entriesSize
      (c.entries.filter (fun p => decide (now > p.2.expireAt))) :=
    entriesSize_nonneg fun p hp => hpos p ((List.filter_sublist _).mem hp)
  refine ⟨⟨?_, ?_, ?_⟩, ?_, hM⟩
  · rw [hC, hE]
    omega
  · rw [hE]
    exact fun p hp => hpos p (hsub.mem hp)
  · rw [hE]
    exact List.Nodup.sublist (List.Sublist.map Prod.fst hsub) hnd
  · rw [hC]
    omega

/-- An abstract cache operation (the public mutating surface together with
reads and the periodic sweep). -/
inductive CacheOp where
  | set (key : String) (entry : CacheEntry)
  | get (key : String) (now : Int)
  | delete (key : String)
  | clear
  | cleanup (now : Int)

/-- Apply one operation to the cache state. -/
def applyOp (c : HTTPCache) : CacheOp → HTTPCache
  | .set k e => c.set k e
  | .get k now => (c.get k now).2
  | .delete k => c.delete k
  | .clear => c.clear
  | .cleanup now => c.cleanupExpired now

/-- Run a sequence of operations from a starting state. -/
def runOps (c : HTTPCache) (ops : List CacheOp) : HTTPCache :=
  ops.foldl applyOp c

/-- The size precondition on an operation: entries handed to `Set` have a
size within `[0, m]`; all other operations are unrestricted. -/
def opSizeOK (m : Int) : CacheOp → Prop
  | .set _ e => 0 ≤ e.size ∧ e.size ≤ m
  | _ => True

/-- Source `HTTPCache.Get` only updates the hit/miss counters. -/
theorem get_state_eq (c : HTTPCache) (k : String) (now : Int) :
    (c.get k now).2.entries = c.entries ∧
      (c.get k now).2.currentSize = c.currentSize ∧
      (c.get k now).2.maxSize = c.maxSize := by
  rcases hl : c.entries.lookup k with _ | e
  · simp [HTTPCache.get, hl]
  · by_cases hexp : now > e.expireAt <;>
      simp [HTTPCache.get, hl, hexp]

theorem applyOp_preserves (c : HTTPCache) (op : CacheOp)
    (hwf : c.WF) (hbound : c.currentSize ≤ c.maxSize)
    (hop : opSizeOK c.maxSize op) :
    (applyOp c op).WF ∧ (applyOp c op).currentSize ≤ (applyOp c op).maxSize ∧
      (applyOp c op).maxSize = c.maxSize := by
  match op with
  | .set k e =>
    have h := set_preserves c k e hwf hbound hop.1 hop.2
    exact ⟨h.1, h.2.2 ▸ h.2.1, h.2.2⟩
  | .get k now =>
    have h := get_state_eq c k now
    obtain ⟨hcs, hpos, hnd⟩ := hwf
    refine ⟨⟨?_, ?_, ?_⟩, ?_, h.2.2⟩
    · rw [show (applyOp c (.get k now)).currentSize = (c.get k now).2.currentSize from rfl,
        show (applyOp c (.get k now)).entries = (c.get k now).2.entries from rfl,
        h.1, h.2.1]
      exact hcs
    · rw [show (applyOp c (.get k now)).entries = (c.get k now).2.entries from rfl, h.1]
      exact hpos
    · rw [show (applyOp c (.get k now)).entries = (c.get k now).2.entries from rfl, h.1]
      exact hnd
    · rw [show (applyOp c (.get k now)).currentSize = (c.get k now).2.currentSize from rfl,
        show (applyOp c (.get k now)).maxSize = (c.get k now).2.maxSize from rfl,
        h.2.1, h.2.2]
      exact hbound
  | .delete k =>
    have h := delete_preserves c k hwf hbound
    exact ⟨h.1, h.2.2 ▸ h.2.1, h.2.2⟩
  | .clear =>
    have h0 : 0 ≤ c.maxSize := by
      have := entriesSize_nonneg hwf.2.1
      have hcs := hwf.1
      omega
    refine ⟨⟨?_, ?_, ?_⟩, h0, rfl⟩
    · rfl
    · intro p hp
      cases hp
    · exact List.nodup_nil
  | .cleanup now =>
    have h := cleanup_preserves c now hwf hbound
    exact ⟨h.1, h.2.2 ▸ h.2.1, h.2.2⟩


/-- Running any operation sequence from a well-formed bounded state keeps the
state well-formed and bounded, with `maxSize` unchanged. -/
theorem runOps_inv (ops : List CacheOp) :
    ∀ c : HTTPCache, c.WF → c.currentSize ≤ c.maxSize →
      (∀ op ∈ ops, opSizeOK c.maxSize op) →
      (runOps c ops).WF ∧
        (runOps c ops).currentSize ≤ (runOps c ops).maxSize ∧
        (runOps c ops).maxSize = c.maxSize := by
  induction ops with
  | nil =>
    intro c hwf hbound _
    exact ⟨hwf, hbound, rfl⟩
  | cons op rest ih =>
    intro c hwf hbound hops
    have hstep := applyOp_preserves c op hwf hbound (hops op (List.mem_cons_self _ _))
    have hrest := ih (applyOp c op) hstep.1 (hstep.2.2 ▸ hstep.2.1)
      (fun o ho => hstep.2.2 ▸ hops o (List.mem_cons_of_mem _ ho))
    refine ⟨hrest.1, hrest.2.1, ?_⟩
    rw [show runOps c (op :: rest) = runOps (applyOp c op) rest from rfl,
      hrest.2.2, hstep.2.2]

instance opSizeOK.dec (m : Int) (op : CacheOp) : Decidable (opSizeOK m op) :=
  match op with
  | .set _ e => inferInstanceAs (Decidable (0 ≤ e.size ∧ e.size ≤ m))
  | .get _ _ => isTrue trivial
  | .delete _ => isTrue trivial
  | .clear => isTrue trivial
  | .cleanup _ => isTrue trivial

/-- C1 (amended).  Cache size bound: for every sequence of operations on an
`HTTPCache` constructed with a nonnegative capacity, in which every inserted
entry's `Size` lies between `0` and the configured `maxSize`, the cache's
`currentSize` equals the sum of the sizes of the stored entries and is at
most `maxSize` after the whole sequence (and hence after every operation,
since every prefix is itself such a sequence).  The original claim's
stronger form — that the bound also holds when a single inserted entry's
`Size` exceeds `maxSize` — is false on the code; see the counterexample. -/
theorem C1_cache_size_bound (maxSize maxAge : Int) (ops : List CacheOp)
    (hmax : 0 ≤ (newHTTPCache maxSize maxAge).maxSize)
    (hops : ∀ op ∈ ops, opSizeOK (newHTTPCache maxSize maxAge).maxSize op) :
    (runOps (newHTTPCache maxSize maxAge) ops).currentSize =
        entriesSize (runOps (newHTTPCache maxSize maxAge) ops).entries ∧
      (runOps (newHTTPCache maxSize maxAge) ops).currentSize ≤
        (newHTTPCache maxSize maxAge).maxSize := by
  have hwf : (newHTTPCache maxSize maxAge).WF := by
    refine ⟨rfl, ?_, List.nodup_nil⟩
    intro p hp
    cases hp
  have h := runOps_inv ops (newHTTPCache maxSize maxAge) hwf hmax hops
  exact ⟨h.1.1, h.2.2 ▸ h.2.1⟩

/-- C1, counterexample to the claim as stated: with `maxSize = 20`, a single
`Set` of an entry of size `25` leaves `currentSize = 25 > 20 = maxSize`, so
the bound does not hold "including when a single inserted entry's Size
exceeds maxSize". -/
theorem C1_counterexample :
    ((newHTTPCache 20 0).set "k"
        { statusCode := 200, headers := [], body := [], cachedAt := 0,
          expireAt := 300, size := 25 }).currentSize = 25 ∧
      ((newHTTPCache 20 0).set "k"
        { statusCode := 200, headers := [], body := [], cachedAt := 0,
          expireAt := 300, size := 25 }).maxSize = 20 ∧
      ¬ ((newHTTPCache 20 0).set "k"
        { statusCode := 200, headers := [], body := [], cachedAt := 0,
          expireAt := 300, size := 25 }).currentSize ≤
        ((newHTTPCache 20 0).set "k"
          { statusCode := 200, headers := [], body := [], cachedAt := 0,
            expireAt := 300, size := 25 }).maxSize := by
  decide

/-- C1, witness: the amended bound applied to a concrete operation
sequence. -/
theorem C1_cache_size_bound_witness :
    (0 ≤ (newHTTPCache 20 0).maxSize ∧
      ∀ op ∈ [CacheOp.set "a"
          { statusCode := 200, headers := [], body := [], cachedAt := 0,
            expireAt := 300, size := 6 },
        CacheOp.set "b"
          { statusCode := 200, headers := [], body := [], cachedAt := 1,
            expireAt := 300, size := 6 },
        CacheOp.set "c"
          { statusCode := 200, headers := [], body := [], cachedAt := 2,
            expireAt := 300, size := 10 },
        CacheOp.get "c" 5, CacheOp.delete "b", CacheOp.cleanup 400,
        CacheOp.clear], opSizeOK (newHTTPCache 20 0).maxSize op) ∧
    ((runOps (newHTTPCache 20 0) [CacheOp.set "a"
          { statusCode := 200, headers := [], body := [], cachedAt := 0,
            expireAt := 300, size := 6 },
        CacheOp.set "b"
          { statusCode := 200, headers := [], body := [], cachedAt := 1,
            expireAt := 300, size := 6 },
        CacheOp.set "c"
          { statusCode := 200, headers := [], body := [], cachedAt := 2,
            expireAt := 300, size := 10 },
        CacheOp.get "c" 5, CacheOp.delete "b", CacheOp.cleanup 400,
        CacheOp.clear]).currentSize =
        entriesSize (runOps (newHTTPCache 20 0) [CacheOp.set "a"
          { statusCode := 200, headers := [], body := [], cachedAt := 0,
            expireAt := 300, size := 6 },
        CacheOp.set "b"
          { statusCode := 200, headers := [], body := [], cachedAt := 1,
            expireAt := 300, size := 6 },
        CacheOp.set "c"
          { statusCode := 200, headers := [], body := [], cachedAt := 2,
            expireAt := 300, size := 10 },
        CacheOp.get "c" 5, CacheOp.delete "b", CacheOp.cleanup 400,
        CacheOp.clear]).entries ∧
      (runOps (newHTTPCache 20 0) [CacheOp.set "a"
          { statusCode := 200, headers := [], body := [], cachedAt := 0,
            expireAt := 300, size := 6 },
        CacheOp.set "b"
          { statusCode := 200, headers := [], body := [], cachedAt := 1,
            expireAt := 300, size := 6 },
        CacheOp.set "c"
          { statusCode := 200, headers := [], body := [], cachedAt := 2,
            expireAt := 300, size := 10 },
        CacheOp.get "c" 5, CacheOp.delete "b", CacheOp.cleanup 400,
        CacheOp.clear]).currentSize ≤ (newHTTPCache 20 0).maxSize) :=
  ⟨⟨by decide, by decide⟩, C1_cache_size_bound 20 0 _ (by decide) (by decide)⟩

/-- A concrete entry shape used by witnesses. -/
def sampleEntry (cachedAt expireAt size : Int) : CacheEntry :=
  { statusCode := 200, headers := [], body := [], cachedAt := cachedAt,
    expireAt := expireAt, size := size }

/-- C8: expiry-gated serving.  `Get` returns a hit exactly when the entry
exists and the read instant is not after its `ExpireAt`; an entry whose
`ExpireAt` has passed is reported as a miss; and an entry with
`ExpireAt = t0 + 100 ms` is a hit at any instant `≤ t0 + 100 ms` (in
particular strictly before the 100 ms mark) and a miss at `t0 + 150 ms` or
later. -/
theorem C8_get_expiry_gated (c : HTTPCache) (key : String) (now : Int) :
    (∀ e : CacheEntry, (c.get key now).1 = some e ↔
        c.entries.lookup key = some e ∧ now ≤ e.expireAt) ∧
    (∀ e : CacheEntry, c.entries.lookup key = some e → e.expireAt < now →
        (c.get key now).1 = none) ∧
    (∀ (t0 : Int) (e : CacheEntry), c.entries.lookup key = some e →
        e.expireAt = t0 + 100000000 →
        (∀ t : Int, t ≤ t0 + 100000000 → (c.get key t).1 = some e) ∧
        (∀ t : Int, t0 + 150000000 ≤ t → (c.get key t).1 = none)) := by
  have hmain : ∀ t : Int, ∀ e : CacheEntry, (c.get key t).1 = some e ↔
      c.entries.lookup key = some e ∧ t ≤ e.expireAt := by
    intro t e
    rcases hl : c.entries.lookup key with _ | e2
    · simp [HTTPCache.get, hl]
    · by_cases hexp : t > e2.expireAt
      · simp only [HTTPCache.get, hl, if_pos hexp]
        constructor
        · intro h
          cases h
        · rintro ⟨he, ht⟩
          cases he
          omega
      · simp only [HTTPCache.get, hl, if_neg hexp]
        constructor
        · rintro h
          cases h
          exact ⟨rfl, by omega⟩
        · rintro ⟨he, _⟩
          cases he
          rfl
  refine ⟨hmain now, ?_, ?_⟩
  · intro e hl hexp
    rcases hg : (c.get key now).1 with _ | e2
    · rfl
    · have := (hmain now e2).mp hg
      rw [hl] at this
      cases this.1
      omega
  · intro t0 e hl hexp
    refine ⟨fun t ht => (hmain t e).mpr ⟨hl, by omega⟩, fun t ht => ?_⟩
    rcases hg : (c.get key t).1 with _ | e2
    · rfl
    · have := (hmain t e2).mp hg
      rw [hl] at this
      cases this.1
      omega

/-- C8, witness: a concrete entry with `ExpireAt = 100 ms` is a hit at
50 ms and a miss at 150 ms. -/
theorem C8_get_expiry_gated_witness :
    ((newHTTPCache 1000 0).set "k" (sampleEntry 0 100000000 4)).entries.lookup "k" =
        some (sampleEntry 0 100000000 4) ∧
    ((((newHTTPCache 1000 0).set "k" (sampleEntry 0 100000000 4)).get "k"
        50000000).1 = some (sampleEntry 0 100000000 4) ∧
      (((newHTTPCache 1000 0).set "k" (sampleEntry 0 100000000 4)).get "k"
        150000000).1 = none) := by
  refine ⟨by decide, ?_, ?_⟩
  · exact ((C8_get_expiry_gated
        ((newHTTPCache 1000 0).set "k" (sampleEntry 0 100000000 4)) "k" 0).2.2 0
        (sampleEntry 0 100000000 4) (by decide) (by decide)).1
      50000000 (by decide)
  · exact ((C8_get_expiry_gated
        ((newHTTPCache 1000 0).set "k" (sampleEntry 0 100000000 4)) "k" 0).2.2 0
        (sampleEntry 0 100000000 4) (by decide) (by decide)).2
      150000000 (by decide)

/-- Helper: in a map with distinct keys, a pair whose key matches a stored
key is that stored pair. -/
theorem mem_key_unique {l : List (String × CacheEntry)}
    (hnd : (l.map Prod.fst).Nodup) {k : String} {e : CacheEntry}
    (hm : (k, e) ∈ l) {q : String × CacheEntry} (hq : q ∈ l) (hqk : q.1 = k) :
    q = (k, e) := by
  induction l with
  | nil => cases hm
  | cons a t ih =>
    have hhead := (List.nodup_cons.mp hnd).1
    rcases List.mem_cons.mp hm with rfl | hm2
    · rcases List.mem_cons.mp hq with rfl | hq2
      · rfl
      · exact absurd (by simpa [hqk] using List.mem_map_of_mem Prod.fst hq2)
          (by simpa using hhead)
    · rcases List.mem_cons.mp hq with rfl | hq2
      · exact absurd (by simpa [hqk] using List.mem_map_of_mem Prod.fst hm2)
          (by simpa [hqk] using hhead)
      · exact ih (List.nodup_cons.mp hnd).2 hm2 hq2

/-- C10: expired entries linger until the sweep.  `Get` never modifies the
map or the size counter (and `Stats` keeps reporting the old size and
count); a stored entry whose `ExpireAt` has passed is still present after a
`Get`, which reports a miss and counts it; the sweep `cleanupExpired`, a
`Delete` of its key, and `Clear` each remove it; and the sweep runs on a
one-minute ticker. -/
theorem C10_expired_entries_linger (c : HTTPCache) (key : String) (now : Int)
    (hnd : (c.entries.map Prod.fst).Nodup) :
    ((c.get key now).2.entries = c.entries ∧
      (c.get key now).2.currentSize = c.currentSize ∧
      (c.get key now).2.stats.2.2 = (c.currentSize, c.entries.length)) ∧
    (∀ e : CacheEntry, c.entries.lookup key = some e → e.expireAt < now →
      (c.get key now).1 = none ∧
      (c.get key now).2.missCount = (c.missCount + 1) % 2 ^ 64 ∧
      (c.get key now).2.entries.lookup key = some e) ∧
    (∀ e : CacheEntry, c.entries.lookup key = some e → e.expireAt < now →
      (c.cleanupExpired now).entries.lookup key = none ∧
      (c.delete key).entries.lookup key = none ∧
      c.clear.entries.lookup key = none) ∧
    cleanupIntervalNs = 60 * 1000000000 := by
  have hstate := get_state_eq c key now
  refine ⟨⟨hstate.1, hstate.2.1, ?_⟩, ?_, ?_, rfl⟩
  · show ((c.get key now).2.currentSize, (c.get key now).2.entries.length) = _
    rw [hstate.1, hstate.2.1]
  · intro e hl hexp
    have hmiss : now > e.expireAt := by omega
    refine ⟨?_, ?_, ?_⟩
    · simp [HTTPCache.get, hl, hmiss]
    · simp [HTTPCache.get, hl, hmiss]
    · rw [hstate.1]
      exact hl
  · intro e hl hexp
    have hmem : (key, e) ∈ c.entries := lookup_mem hl
    refine ⟨?_, ?_, ?_⟩
    · refine lookup_eq_none_iff.mpr ?_
      intro q hq hqk
      have hq2 := List.mem_filter.mp hq
      have : q = (key, e) := mem_key_unique hnd hmem hq2.1 hqk
      subst this
      have := hq2.2
      simp only [decide_eq_true_eq] at this
      omega
    · rcases hl2 : c.entries.lookup key with _ | e2
      · rw [hl2] at hl
        cases hl
      · have hE : (c.delete key).entries = mapDelete c.entries key := by
          simp only [HTTPCache.delete, hl2]
        rw [hE]
        refine lookup_eq_none_iff.mpr ?_
        intro q hq hqk
        have := (List.mem_filter.mp hq).2
        simp only [decide_eq_true_eq] at this
        exact this hqk
    · simp [HTTPCache.clear]

/-- C10, witness: a concrete expired entry stays in the map across a `Get`
(counted as a miss) and is removed by the sweep. -/
theorem C10_expired_entries_linger_witness :
    ((((newHTTPCache 1000 0).set "k" (sampleEntry 0 100 4)).get "k" 200).1 = none ∧
      (((newHTTPCache 1000 0).set "k" (sampleEntry 0 100 4)).get "k"
          200).2.entries.lookup "k" = some (sampleEntry 0 100 4)) ∧
    (((newHTTPCache 1000 0).set "k"
        (sampleEntry 0 100 4)).cleanupExpired 200).entries.lookup "k" = none := by
  have h := C10_expired_entries_linger
    ((newHTTPCache 1000 0).set "k" (sampleEntry 0 100 4)) "k" 200 (by decide)
  have h2 := h.2.1 (sampleEntry 0 100 4) (by decide) (by decide)
  have h3 := h.2.2.1 (sampleEntry 0 100 4) (by decide) (by decide)
  exact ⟨⟨h2.1, h2.2.2⟩, h3.1⟩

/-! ## Requests, responses and the cacheability predicate -/

/-- The fragment of `net/url.URL` the proxy reads and writes: scheme, host
(authority), and the rest of the URL (path and optional raw query). -/
structure URL where
  scheme : String
  host : String
  path : String
  rawQuery : String
deriving DecidableEq, Repr

/-- Go `url.URL.String()` restricted to this fragment: `scheme://host` when a
scheme is present, then the path, then `?query` when a query is present. -/
def URL.render (u : URL) : String :=
  (if u.scheme ≠ "" then u.scheme ++ "://" else "") ++ u.host ++ u.path ++
    (if u.rawQuery ≠ "" then "?" ++ u.rawQuery else "")

/-- The fragment of `http.Request` the cache and the forwarding paths read:
method, URL, the `Host` field, headers and body. -/
structure GoRequest where
  method : String
  url : URL
  host : String
  header : Header
  body : List Nat
deriving DecidableEq, Repr

/-- The fragment of `http.Response` the cache reads: status code, headers
and body. -/
structure GoResponse where
  statusCode : Int
  header : Header
  body : List Nat
deriving DecidableEq, Repr

/-- Source `IsCacheable` (internal/cache/http_cache.go): only GET requests,
2xx statuses, a Cache-Control value free of `no-store`/`no-cache`/`private`
substrings, and an empty `Authorization` header value. -/
def IsCacheable (r : GoRequest) (resp : GoResponse) : Bool :=
  if r.method ≠ "GET" then false
  else if resp.statusCode < 200 ∨ resp.statusCode ≥ 300 then false
  else
    let cacheControl := resp.header.get "Cache-Control"
    if goContains cacheControl "no-store" || goContains cacheControl "no-cache" then
      false
    else if goContains cacheControl "private" then false
    else if r.header.get "Authorization" ≠ "" then false
    else true

/-- The cacheability predicate exactly as the specification words it; it
differs from the source in reading "the request has no Authorization
header" as the key being absent from the header map. -/
def isCacheableClaim (r : GoRequest) (resp : GoResponse) : Prop :=
  r.method = "GET" ∧ 200 ≤ resp.statusCode ∧ resp.statusCode < 300 ∧
  goContains (resp.header.get "Cache-Control") "no-store" = false ∧
  goContains (resp.header.get "Cache-Control") "no-cache" = false ∧
  goContains (resp.header.get "Cache-Control") "private" = false ∧
  r.header.hasKey "Authorization" = false

instance (r : GoRequest) (resp : GoResponse) : Decidable (isCacheableClaim r resp) :=
  inferInstanceAs (Decidable (_ ∧ _))

/-- C2, counterexample to the claim as stated: a GET request carrying an
`Authorization` header with an empty value has an Authorization header, yet
`IsCacheable` accepts the pair (`Header.Get` returns `""` for it), so
"accepted iff ... the request has no Authorization header" fails. -/
theorem C2_counterexample :
    IsCacheable
        { method := "GET", url := ⟨"http", "example.com", "/", ""⟩,
          host := "example.com", header := [("Authorization", [""])], body := [] }
        { statusCode := 200, header := [], body := [] } = true ∧
      ¬ isCacheableClaim
        { method := "GET", url := ⟨"http", "example.com", "/", ""⟩,
          host := "example.com", header := [("Authorization", [""])], body := [] }
        { statusCode := 200, header := [], body := [] } := by
  decide

/-- C2 (amended): `IsCacheable` accepts a pair exactly when the method is
GET, the status is in `[200, 300)`, the `Cache-Control` value (as returned
by `Header.Get`) contains none of the substrings `no-store`, `no-cache`,
`private`, and the `Authorization` value returned by `Header.Get` is empty
(the header may still be present with an empty value). -/
theorem C2_is_cacheable_iff (r : GoRequest) (resp : GoResponse) :
    IsCacheable r resp = true ↔
      (r.method = "GET" ∧ 200 ≤ resp.statusCode ∧ resp.statusCode < 300 ∧
        goContains (resp.header.get "Cache-Control") "no-store" = false ∧
        goContains (resp.header.get "Cache-Control") "no-cache" = false ∧
        goContains (resp.header.get "Cache-Control") "private" = false ∧
        r.header.get "Authorization" = "") := by
  constructor
  · intro h
    simp only [IsCacheable] at h
    by_cases h1 : r.method ≠ "GET"
    · rw [if_pos h1] at h
      cases h
    rw [if_neg h1] at h
    by_cases h2 : resp.statusCode < 200 ∨ resp.statusCode ≥ 300
    · rw [if_pos h2] at h
      cases h
    rw [if_neg h2] at h
    by_cases h3 : (goContains (resp.header.get "Cache-Control") "no-store" ||
        goContains (resp.header.get "Cache-Control") "no-cache") = true
    · rw [if_pos h3] at h
      cases h
    rw [if_neg h3] at h
    by_cases h4 : goContains (resp.header.get "Cache-Control") "private" = true
    · rw [if_pos h4] at h
      cases h
    rw [if_neg h4] at h
    by_cases h5 : r.header.get "Authorization" ≠ ""
    · rw [if_pos h5] at h
      cases h
    push_neg at h1 h2 h5
    have hns : goContains (resp.header.get "Cache-Control") "no-store" = false := by
      rcases hb : goContains (resp.header.get "Cache-Control") "no-store" with _ | _
      · rfl
      · exact absurd (by simp [hb]) h3
    have hnc : goContains (resp.header.get "Cache-Control") "no-cache" = false := by
      rcases hb : goContains (resp.header.get "Cache-Control") "no-cache" with _ | _
      · rfl
      · exact absurd (by simp [hb]) h3
    exact ⟨h1, by omega, by omega, hns, hnc, Bool.eq_false_iff.mpr h4, h5⟩
  · rintro ⟨hm, hs1, hs2, hns, hnc, hpr, ha⟩
    simp only [IsCacheable]
    rw [if_neg (by simp [hm]), if_neg (by omega), if_neg (by simp [hns, hnc]),
      if_neg (by simp [hpr]), if_neg (by simp [ha])]

/-! ## The eviction algorithm (claim C3) -/

/-- The eviction loop exactly as the claim words it: repeatedly remove the
entry with the smallest `CachedAt`, stopping as soon as the new entry fits
within `maxSize` (`currentSize + newSize ≤ maxSize`) or the store is
empty. -/
def evictLoopClaimFuel : Nat → List (String × CacheEntry) → Int → Int → Int →
    List (String × CacheEntry) × Int
  | 0, entries, currentSize, _, _ => (entries, currentSize)
  | fuel + 1, entries, currentSize, newSize, maxSize =>
    if currentSize + newSize > maxSize ∧ entries ≠ [] then
      match findOldest none entries with
      | some p =>
        evictLoopClaimFuel fuel (mapDelete entries p.1) (currentSize - p.2.size)
          newSize maxSize
      | none => (entries, currentSize)
    else
      (entries, currentSize)

/-- `Set` as the claim describes it: evict with the fits-within-`maxSize`
stopping rule, then store. -/
def setClaim (c : HTTPCache) (key : String) (entry : CacheEntry) : HTTPCache :=
  let st :=
    if c.currentSize + entry.size > c.maxSize then
      evictLoopClaimFuel c.entries.length c.entries c.currentSize entry.size c.maxSize
    else
      (c.entries, c.currentSize)
  let afterOld :=
    match st.1.lookup key with
    | some old => st.2 - old.size
    | none => st.2
  { c with entries := mapInsert st.1 key entry, currentSize := afterOld + entry.size }

/-- C3, counterexample to the claim as stated: with `maxSize = 20` and
entries of sizes 2 and 2 (strictly increasing `CachedAt`), inserting an
entry of size 18 makes the source `Set` evict both stored entries — it
frees at least the new entry's size (18) — while the claimed rule "stop as
soon as the new entry fits within maxSize" would stop after evicting only
the first (2 + 18 = 20 ≤ 20), leaving the second in place. -/
theorem C3_counterexample :
    ((((newHTTPCache 20 0).set "a" (sampleEntry 0 300 2)).set "b"
          (sampleEntry 1 300 2)).set "c" (sampleEntry 2 300 18)).entries.lookup
        "b" = none ∧
      (setClaim (((newHTTPCache 20 0).set "a" (sampleEntry 0 300 2)).set "b"
          (sampleEntry 1 300 2)) "c" (sampleEntry 2 300 18)).entries.lookup "b" =
        some (sampleEntry 1 300 2) ∧
      (setClaim (((newHTTPCache 20 0).set "a" (sampleEntry 0 300 2)).set "b"
          (sampleEntry 1 300 2)) "c" (sampleEntry 2 300 18)).entries.lookup "c" =
        some (sampleEntry 2 300 18) := by
  decide

/-- Helper: a found oldest entry has the smallest `CachedAt` among the list
(and is no older than the running candidate). -/
theorem findOldest_min (l : List (String × CacheEntry)) :
    ∀ (best : Option (String × CacheEntry)) (p : String × CacheEntry),
      findOldest best l = some p →
      (∀ q ∈ l, p.2.cachedAt ≤ q.2.cachedAt) ∧
        (∀ b, best = some b → p.2.cachedAt ≤ b.2.cachedAt) := by
  induction l with
  | nil =>
    intro best p h
    simp only [findOldest] at h
    refine ⟨fun q hq => absurd hq (List.not_mem_nil q), fun b hb => ?_⟩
    rw [hb] at h
    cases h
    exact le_refl _
  | cons a t ih =>
    intro best p h
    match best with
    | none =>
      have hrec := ih (some a) p (by simpa [findOldest] using h)
      refine ⟨?_, fun b hb => by cases hb⟩
      intro q hq
      rcases List.mem_cons.mp hq with rfl | hq2
      · exact hrec.2 q rfl
      · exact hrec.1 q hq2
    | some b0 =>
      by_cases hlt : a.2.cachedAt < b0.2.cachedAt
      · have hrec := ih (some a) p (by simpa [findOldest, hlt] using h)
        refine ⟨?_, ?_⟩
        · intro q hq
          rcases List.mem_cons.mp hq with rfl | hq2
          · exact hrec.2 q rfl
          · exact hrec.1 q hq2
        · intro b hb
          cases hb
          have := hrec.2 a rfl
          omega
      · have hrec := ih (some b0) p (by simpa [findOldest, hlt] using h)
        refine ⟨?_, ?_⟩
        · intro q hq
          rcases List.mem_cons.mp hq with rfl | hq2
          · have := hrec.2 b0 rfl
            omega
          · exact hrec.1 q hq2
        · intro b hb
          cases hb
          exact hrec.2 b0 rfl

/-- Helper: the eviction loop only removes entries, never adds them. -/
theorem evictLoopFuel_sublist :
    ∀ (fuel : Nat) (l : List (String × CacheEntry)) (cs n : Int),
      (evictLoopFuel fuel l cs n).1.Sublist l := by
  intro fuel
  induction fuel with
  | zero =>
    intro l cs n
    exact List.Sublist.refl l
  | succ f ih =>
    intro l cs n
    by_cases hc : n > 0 ∧ l ≠ []
    · rcases hfo : findOldest none l with _ | m
      · have : evictLoopFuel (f + 1) l cs n = (l, cs) := by
          simp only [evictLoopFuel]
          rw [if_pos hc, hfo]
        rw [this]
      · have : evictLoopFuel (f + 1) l cs n =
            evictLoopFuel f (mapDelete l m.1) (cs - m.2.size) (n - m.2.size) := by
          simp only [evictLoopFuel]
          rw [if_pos hc, hfo]
        rw [this]
        exact (ih _ _ _).trans (List.filter_sublist l)
    · have : evictLoopFuel (f + 1) l cs n = (l, cs) := by
        simp only [evictLoopFuel]
        rw [if_neg hc]
      rw [this]

/-- Helper: eviction removes the oldest entries first — when timestamps are
pairwise distinct, every evicted entry is strictly older than every
survivor. -/
theorem evictLoopFuel_oldest_first :
    ∀ (fuel : Nat) (l : List (String × CacheEntry)) (cs n : Int),
      (l.map Prod.fst).Nodup →
      (∀ p ∈ l, ∀ q ∈ l, p ≠ q → p.2.cachedAt ≠ q.2.cachedAt) →
      ∀ p ∈ (evictLoopFuel fuel l cs n).1, ∀ q ∈ l,
        q ∉ (evictLoopFuel fuel l cs n).1 → q.2.cachedAt < p.2.cachedAt := by
  intro fuel
  induction fuel with
  | zero =>
    intro l cs n _ _ p _ q hq hqn
    exact absurd hq hqn
  | succ f ih =>
    intro l cs n hnd hdist p hp q hq hqn
    by_cases hc : n > 0 ∧ l ≠ []
    · obtain ⟨m, hm⟩ := Option.isSome_iff_exists.mp
        (findOldest_isSome l none (Or.inl hc.2))
      have hmem : m ∈ l := by
        rcases findOldest_mem l none m hm with h2 | h2
        · exact h2
        · cases h2
      have hmin := (findOldest_min l none m hm).1
      have hunfold : evictLoopFuel (f + 1) l cs n =
          evictLoopFuel f (mapDelete l m.1) (cs - m.2.size) (n - m.2.size) := by
        simp only [evictLoopFuel]
        rw [if_pos hc, hm]
      rw [hunfold] at hp hqn
      have hsubdel : (mapDelete l m.1).Sublist l := List.filter_sublist _
      have hnd2 : ((mapDelete l m.1).map Prod.fst).Nodup :=
        List.Nodup.sublist (List.Sublist.map Prod.fst hsubdel) hnd
      have hdist2 : ∀ p2 ∈ mapDelete l m.1, ∀ q2 ∈ mapDelete l m.1, p2 ≠ q2 →
          p2.2.cachedAt ≠ q2.2.cachedAt :=
        fun p2 hp2 q2 hq2 hne => hdist p2 (hsubdel.mem hp2) q2 (hsubdel.mem hq2) hne
      have hpmem : p ∈ mapDelete l m.1 := (evictLoopFuel_sublist f _ _ _).mem hp
      by_cases hqdel : q ∈ mapDelete l m.1
      · exact ih (mapDelete l m.1) _ _ hnd2 hdist2 p hp q hqdel hqn
      · have hqk : q.1 = m.1 := by
          by_contra hne
          exact hqdel (List.mem_filter.mpr ⟨hq, by simpa using hne⟩)
        have hqm : q = (m.1, m.2) := mem_key_unique hnd hmem hq hqk
        rw [show (m.1, m.2) = m from rfl] at hqm
        subst hqm
        have hple : q.2.cachedAt ≤ p.2.cachedAt := hmin p (hsubdel.mem hpmem)
        have hpne : p ≠ q := by
          intro hEq
          have := (List.mem_filter.mp hpmem).2
          rw [hEq] at this
          simp at this
        have := hdist p (hsubdel.mem hpmem) q hmem hpne
        omega
    · have heq : evictLoopFuel (f + 1) l cs n = (l, cs) := by
        simp only [evictLoopFuel]
        rw [if_neg hc]
      rw [heq] at hqn
      exact absurd hq hqn

/-- C3 (amended).  Eviction: when `Set` must evict, the code repeatedly
removes the entry with the smallest `CachedAt` and stops as soon as the
total size removed reaches the new entry's `Size` — not as soon as the new
entry would fit within `maxSize` — or the store is empty.  Concretely, with
`maxSize = 20` and entries of sizes 6, 6, 10 inserted with strictly
increasing `CachedAt`, after the third insert the first entry is absent and
the third is present (the second is also evicted, since 6 < 10).  In
general the loop frees at least `needed` bytes or empties the store, and
with pairwise distinct timestamps every evicted entry is strictly older
than every survivor. -/
theorem C3_lru_eviction :
    ((((newHTTPCache 20 0).set "key1" (sampleEntry 0 300 6)).set "key2"
          (sampleEntry 1 300 6)).set "key3" (sampleEntry 2 300 10)).entries.lookup
        "key1" = none ∧
    ((((newHTTPCache 20 0).set "key1" (sampleEntry 0 300 6)).set "key2"
          (sampleEntry 1 300 6)).set "key3" (sampleEntry 2 300 10)).entries.lookup
        "key3" = some (sampleEntry 2 300 10) ∧
    (∀ (l : List (String × CacheEntry)) (cs n : Int),
      cs = entriesSize l → (l.map Prod.fst).Nodup →
      (n ≤ cs - (HTTPCache.evictLRU l cs n).2 ∨ (HTTPCache.evictLRU l cs n).1 = []) ∧
      ((∀ p ∈ l, ∀ q ∈ l, p ≠ q → p.2.cachedAt ≠ q.2.cachedAt) →
        ∀ p ∈ (HTTPCache.evictLRU l cs n).1, ∀ q ∈ l,
          q ∉ (HTTPCache.evictLRU l cs n).1 → q.2.cachedAt < p.2.cachedAt)) := by
  refine ⟨by decide, by decide, ?_⟩
  intro l cs n hcs hnd
  refine ⟨(evictLoopFuel_spec l.length l cs n (le_refl _) hnd hcs).2.2, ?_⟩
  intro hdist
  exact evictLoopFuel_oldest_first l.length l cs n hnd hdist

/-- C3, witness: the general eviction properties applied to a concrete
two-entry store. -/
theorem C3_lru_eviction_witness :
    ((12 : Int) = entriesSize [("key1", sampleEntry 0 300 6),
        ("key2", sampleEntry 1 300 6)] ∧
      (([("key1", sampleEntry 0 300 6),
        ("key2", sampleEntry 1 300 6)]).map Prod.fst).Nodup) ∧
    ((10 ≤ 12 - (HTTPCache.evictLRU [("key1", sampleEntry 0 300 6),
          ("key2", sampleEntry 1 300 6)] 12 10).2 ∨
        (HTTPCache.evictLRU [("key1", sampleEntry 0 300 6),
          ("key2", sampleEntry 1 300 6)] 12 10).1 = []) ∧
      ((∀ p ∈ [("key1", sampleEntry 0 300 6), ("key2", sampleEntry 1 300 6)],
          ∀ q ∈ [("key1", sampleEntry 0 300 6), ("key2", sampleEntry 1 300 6)],
            p ≠ q → p.2.cachedAt ≠ q.2.cachedAt) →
        ∀ p ∈ (HTTPCache.evictLRU [("key1", sampleEntry 0 300 6),
            ("key2", sampleEntry 1 300 6)] 12 10).1,
          ∀ q ∈ [("key1", sampleEntry 0 300 6), ("key2", sampleEntry 1 300 6)],
            q ∉ (HTTPCache.evictLRU [("key1", sampleEntry 0 300 6),
              ("key2", sampleEntry 1 300 6)] 12 10).1 →
              q.2.cachedAt < p.2.cachedAt)) :=
  ⟨⟨by decide, by decide⟩,
    C3_lru_eviction.2.2 [("key1", sampleEntry 0 300 6),
      ("key2", sampleEntry 1 300 6)] 12 10 (by decide) (by decide)⟩

/-! ## TTL derivation (claim C4) -/

/-- Two's-complement wrap of an integer to the `int64` range (Go integer
arithmetic wraps on overflow). -/
def wrap64 (x : Int) : Int := (x + 2 ^ 63) % 2 ^ 64 - 2 ^ 63

/-- Go `strings.Split(s, ",")` on character lists. -/
def splitCommaChars : List Char → List (List Char)
  | [] => [[]]
  | c :: rest =>
    if c = ',' then [] :: splitCommaChars rest
    else
      match splitCommaChars rest with
      | hd :: tl => (c :: hd) :: tl
      | [] => [[c]]

/-- Go `strings.Split(s, ",")`. -/
def goSplitComma (s : String) : List String :=
  (splitCommaChars s.data).map String.mk

/-- The ASCII white-space set of Go `strings.TrimSpace` (the full set also
has a few exotic Unicode spaces that cannot occur in the headers at
issue). -/
def isGoSpace (c : Char) : Bool :=
  c = ' ' ∨ c = '\t' ∨ c = '\n' ∨ c = '\r' ∨ c.toNat = 11 ∨ c.toNat = 12

/-- Go `strings.TrimSpace`. -/
def goTrimSpace (s : String) : String :=
  String.mk (((s.data.dropWhile isGoSpace).reverse.dropWhile isGoSpace).reverse)

/-- A decimal digit (Go `'0' <= c && c <= '9'` in the ParseInt scan). -/
def isDigitChar (c : Char) : Bool :=
  48 ≤ c.toNat ∧ c.toNat ≤ 57

/-- The value of a nonempty run of decimal digits, `none` otherwise. -/
def digitsVal : List Char → Option Nat
  | [] => none
  | cs =>
    if cs.all isDigitChar then
      some (cs.foldl (fun acc c => 10 * acc + (c.toNat - 48)) 0)
    else none

/-- Go `strconv.ParseInt(s, 10, 64)`: optional sign, decimal digits, and a
range check against the `int64` bounds (out-of-range input is an error). -/
def parseInt64 (s : String) : Option Int :=
  match s.data with
  | [] => none
  | c :: rest =>
    if c = '+' then
      (digitsVal rest).bind fun v =>
        if v ≤ 2 ^ 63 - 1 then some (v : Int) else none
    else if c = '-' then
      (digitsVal rest).bind fun v =>
        if v ≤ 2 ^ 63 then some (-(v : Int)) else none
    else
      (digitsVal (c :: rest)).bind fun v =>
        if v ≤ 2 ^ 63 - 1 then some (v : Int) else none

/-- The directive scan inside source `GetMaxAge`: the first comma-separated
directive with prefix `max-age=` whose remainder parses as an `int64` wins;
`time.Duration(seconds) * time.Second` is an `int64` product, hence the
wrap. -/
def findMaxAge : List String → Int → Int
  | [], d => d
  | dir :: rest, d =>
    if goHasPrefix dir "max-age=" then
      match parseInt64 (dir.drop 8) with
      | some seconds => wrap64 (seconds * 1000000000)
      | none => findMaxAge rest d
    else
      findMaxAge rest d

/-- Source `GetMaxAge`: an empty `Cache-Control` value yields the default;
otherwise the value is split on commas, each directive trimmed, and the
first parseable `max-age=` directive yields its duration. -/
def GetMaxAge (resp : GoResponse) (defaultAge : Int) : Int :=
  let cacheControl := resp.header.get "Cache-Control"
  if cacheControl = "" then defaultAge
  else findMaxAge ((goSplitComma cacheControl).map goTrimSpace) defaultAge

/-- Source `CreateCacheEntry` at instant `now`: the entry stores the
response verbatim, `CachedAt = now`, `ExpireAt = now + GetMaxAge(resp,
maxAge)`, and `Size` is the body length. -/
def CreateCacheEntry (resp : GoResponse) (maxAge now : Int) : CacheEntry :=
  { statusCode := resp.statusCode, headers := resp.header, body := resp.body,
    cachedAt := now, expireAt := now + GetMaxAge resp maxAge,
    size := (resp.body.length : Int) }

/-- A response whose only header is the given `Cache-Control` value (used by
concrete instances below). -/
def respCC (v : String) : GoResponse :=
  { statusCode := 200, header := [("Cache-Control", [v])], body := [] }

/-- C4, counterexample to the claim as stated: `max-age=9223372036854775807`
is a `max-age=<n>` directive with integer `n = 2^63 - 1` (exactly the
largest value `strconv.ParseInt` accepts), but `n` seconds overflows the
`int64` duration: the stored entry's `ExpireAt - CachedAt` is `-1` second,
not `n` seconds. -/
theorem C4_counterexample :
    parseInt64 "9223372036854775807" = some 9223372036854775807 ∧
    (CreateCacheEntry (respCC "max-age=9223372036854775807")
        (5 * 60 * 1000000000) 0).expireAt -
      (CreateCacheEntry (respCC "max-age=9223372036854775807")
        (5 * 60 * 1000000000) 0).cachedAt = -1000000000 ∧
    (-1000000000 : Int) ≠ 9223372036854775807 * 1000000000 := by
  refine ⟨by decide, by decide, by decide⟩

theorem findMaxAge_no_prefix {dirs : List String} {d : Int}
    (h : ∀ dir ∈ dirs, goHasPrefix dir "max-age=" = false) :
    findMaxAge dirs d = d := by
  induction dirs with
  | nil => rfl
  | cons dir rest ih =>
    have hdir := h dir (List.mem_cons_self _ _)
    simp only [findMaxAge, hdir, Bool.false_eq_true, if_false]
    exact ih fun d2 hd2 => h d2 (List.mem_cons_of_mem _ hd2)

theorem findMaxAge_first {pre : List String} {dir : String} {post : List String}
    {d n : Int}
    (hpre : ∀ d2 ∈ pre, goHasPrefix d2 "max-age=" = false ∨
      parseInt64 (d2.drop 8) = none)
    (hdir : goHasPrefix dir "max-age=" = true)
    (hparse : parseInt64 (dir.drop 8) = some n) :
    findMaxAge (pre ++ dir :: post) d = wrap64 (n * 1000000000) := by
  induction pre with
  | nil =>
    simp only [List.nil_append, findMaxAge, hdir, if_true, hparse]
  | cons d2 rest ih =>
    rcases hpre d2 (List.mem_cons_self _ _) with hskip | hskip
    · simp only [List.cons_append, findMaxAge, hskip, Bool.false_eq_true, if_false]
      exact ih fun d3 hd3 => hpre d3 (List.mem_cons_of_mem _ hd3)
    · by_cases hp2 : goHasPrefix d2 "max-age=" = true
      · simp only [List.cons_append, findMaxAge, hp2, if_true, hskip]
        exact ih fun d3 hd3 => hpre d3 (List.mem_cons_of_mem _ hd3)
      · simp only [List.cons_append, findMaxAge, Bool.eq_false_iff.mpr hp2,
          Bool.false_eq_true, if_false]
        exact ih fun d3 hd3 => hpre d3 (List.mem_cons_of_mem _ hd3)

theorem wrap64_eq_self {x : Int} (h1 : -(2 ^ 63) ≤ x) (h2 : x < 2 ^ 63) :
    wrap64 x = x := by
  unfold wrap64
  omega

/-- C4 (amended).  TTL derivation: the stored entry's
`ExpireAt - CachedAt` equals the parsed `max-age` value in seconds whenever
the first parseable `max-age=<n>` directive of the (first) `Cache-Control`
value has `n · 10⁹` within the `int64` range; it equals the configured
default TTL when the header is empty or carries no `max-age=` directive;
and `NewHTTPCache` defaults that TTL to 5 minutes.  For `n` beyond the
range (the code still accepts `n` up to `2^63 - 1`) the `int64` duration
product wraps, so the equality with `n` seconds fails — see the
counterexample. -/
theorem C4_ttl_derivation (resp : GoResponse) (d now : Int) :
    (resp.header.get "Cache-Control" = "" →
      (CreateCacheEntry resp d now).expireAt -
        (CreateCacheEntry resp d now).cachedAt = d) ∧
    ((∀ dir ∈ (goSplitComma (resp.header.get "Cache-Control")).map goTrimSpace,
        goHasPrefix dir "max-age=" = false) →
      (CreateCacheEntry resp d now).expireAt -
        (CreateCacheEntry resp d now).cachedAt = d) ∧
    (∀ (pre post : List String) (dir : String) (n : Int),
      resp.header.get "Cache-Control" ≠ "" →
      (goSplitComma (resp.header.get "Cache-Control")).map goTrimSpace =
        pre ++ dir :: post →
      (∀ d2 ∈ pre, goHasPrefix d2 "max-age=" = false ∨
        parseInt64 (d2.drop 8) = none) →
      goHasPrefix dir "max-age=" = true →
      parseInt64 (dir.drop 8) = some n →
      -(2 ^ 63) ≤ n * 1000000000 → n * 1000000000 < 2 ^ 63 →
      (CreateCacheEntry resp d now).expireAt -
        (CreateCacheEntry resp d now).cachedAt = n * 1000000000) ∧
    (newHTTPCache 0 0).maxAge = 5 * 60 * 1000000000 := by
  have hdelta : (CreateCacheEntry resp d now).expireAt -
      (CreateCacheEntry resp d now).cachedAt = GetMaxAge resp d := by
    simp only [CreateCacheEntry]
    omega
  refine ⟨?_, ?_, ?_, by decide⟩
  · intro hcc
    rw [hdelta]
    simp only [GetMaxAge, hcc, if_true]
  · intro hnone
    rw [hdelta]
    by_cases hcc : resp.header.get "Cache-Control" = ""
    · simp only [GetMaxAge, hcc, if_true]
    · simp only [GetMaxAge, if_neg hcc]
      exact findMaxAge_no_prefix hnone
  · intro pre post dir n hcc hsplit hpre hdir hparse hlo hhi
    rw [hdelta]
    simp only [GetMaxAge, if_neg hcc]
    rw [hsplit, findMaxAge_first hpre hdir hparse, wrap64_eq_self hlo hhi]

/-- C4, witness: `Cache-Control: public, max-age=60` yields a TTL of 60
seconds. -/
theorem C4_ttl_derivation_witness :
    ((respCC "public, max-age=60").header.get "Cache-Control" ≠ "" ∧
      (goSplitComma ((respCC "public, max-age=60").header.get
          "Cache-Control")).map goTrimSpace = ["public"] ++ "max-age=60" :: [] ∧
      goHasPrefix "max-age=60" "max-age=" = true ∧
      parseInt64 (String.drop "max-age=60" 8) = some 60) ∧
    (CreateCacheEntry (respCC "public, max-age=60")
        (5 * 60 * 1000000000) 7).expireAt -
      (CreateCacheEntry (respCC "public, max-age=60")
        (5 * 60 * 1000000000) 7).cachedAt = 60 * 1000000000 := by
  refine ⟨⟨by decide, by decide, by decide, by decide⟩, ?_⟩
  exact (C4_ttl_derivation (respCC "public, max-age=60")
      (5 * 60 * 1000000000) 7).2.2.1 ["public"] [] "max-age=60" 60
    (by decide) (by decide) (by decide) (by decide) (by decide) (by decide)
    (by decide)

/-! ## SHA-256 and the cache key (claim C5)

An executable SHA-256 (FIPS 180-4) over byte lists, with 32-bit words as
naturals reduced mod `2^32`, used to state `GenerateKey` faithfully. -/

/-- Reduce to a 32-bit word. -/
def w32 (x : Nat) : Nat := x % 4294967296

/-- 32-bit right rotation. -/
def rotr32 (x n : Nat) : Nat := w32 ((x >>> n) ||| (x <<< (32 - n)))

def smallSigma0 (x : Nat) : Nat := (rotr32 x 7) ^^^ (rotr32 x 18) ^^^ (x >>> 3)

def smallSigma1 (x : Nat) : Nat := (rotr32 x 17) ^^^ (rotr32 x 19) ^^^ (x >>> 10)

def bigSigma0 (x : Nat) : Nat := (rotr32 x 2) ^^^ (rotr32 x 13) ^^^ (rotr32 x 22)

def bigSigma1 (x : Nat) : Nat := (rotr32 x 6) ^^^ (rotr32 x 11) ^^^ (rotr32 x 25)

def chWord (x y z : Nat) : Nat := (x &&& y) ^^^ ((x ^^^ 4294967295) &&& z)

def majWord (x y z : Nat) : Nat := (x &&& y) ^^^ (x &&& z) ^^^ (y &&& z)

/-- The SHA-256 round constants. -/
def sha256K : List Nat :=
  [1116352408, 1899447441, 3049323471, 3921009573, 961987163, 1508970993,
   2453635748, 2870763221, 3624381080, 310598401, 607225278, 1426881987,
   1925078388, 2162078206, 2614888103, 3248222580, 3835390401, 4022224774,
   264347078, 604807628, 770255983, 1249150122, 1555081692, 1996064986,
   2554220882, 2821834349, 2952996808, 3210313671, 3336571891, 3584528711,
   113926993, 338241895, 666307205, 773529912, 1294757372, 1396182291,
   1695183700, 1986661051, 2177026350, 2456956037, 2730485921, 2820302411,
   3259730800, 3345764771, 3516065817, 3600352804, 4094571909, 275423344,
   430227734, 506948616, 659060556, 883997877, 958139571, 1322822218,
   1537002063, 1747873779, 1955562222, 2024104815, 2227730452, 2361852424,
   2428436474, 2756734187, 3204031479, 3329325298]

/-- The SHA-256 initial hash value. -/
def sha256H0 : List Nat :=
  [1779033703, 3144134277, 1013904242, 2773480762,
   1359893119, 2600822924, 528734635, 1541459225]

/-- Big-endian 64-bit byte encoding. -/
def toBE64 (n : Nat) : List Nat :=
  [(n >>> 56) % 256, (n >>> 48) % 256, (n >>> 40) % 256, (n >>> 32) % 256,
   (n >>> 24) % 256, (n >>> 16) % 256, (n >>> 8) % 256, n % 256]

/-- SHA-256 padding: `0x80`, zeros to 56 mod 64, then the bit length. -/
def sha256Pad (msg : List Nat) : List Nat :=
  msg ++ 128 :: List.replicate ((119 - msg.length % 64) % 64) 0 ++
    toBE64 (msg.length * 8)

/-- Big-endian bytes to 32-bit words. -/
def toWords : List Nat → List Nat
  | a :: b :: c :: d :: rest =>
    ((((a <<< 8) ||| b) <<< 8 ||| c) <<< 8 ||| d) :: toWords rest
  | _ => []

/-- Extend the 16 block words to the 64-word schedule (kept reversed). -/
def scheduleAux : Nat → List Nat → List Nat
  | 0, wrev => wrev
  | k + 1, wrev =>
    scheduleAux k
      (w32 (smallSigma1 (wrev.getD 1 0) + wrev.getD 6 0 +
        smallSigma0 (wrev.getD 14 0) + wrev.getD 15 0) :: wrev)

/-- The 64 compression rounds over the state `[a, b, c, d, e, f, g, h]`. -/
def compressRounds : List (Nat × Nat) → List Nat → List Nat
  | [], st => st
  | (k, w) :: rest, st =>
    match st with
    | [a, b, c, d, e, f, g, h] =>
      compressRounds rest
        [w32 (w32 (h + bigSigma1 e + chWord e f g + k + w) +
            w32 (bigSigma0 a + majWord a b c)),
          a, b, c,
          w32 (d + w32 (h + bigSigma1 e + chWord e f g + k + w)), e, f, g]
    | _ => st

/-- One 64-byte block. -/
def processBlock (h : List Nat) (block : List Nat) : List Nat :=
  let w := (scheduleAux 48 (toWords block).reverse).reverse
  let st := compressRounds (sha256K.zip w) h
  (h.zip st).map fun p => w32 (p.1 + p.2)

def processBlocksAux : Nat → List Nat → List Nat → List Nat
  | 0, h, _ => h
  | n + 1, h, bytes =>
    processBlocksAux n (processBlock h (bytes.take 64)) (bytes.drop 64)

/-- SHA-256 of a byte list, as the 32 digest bytes. -/
def sha256 (msg : List Nat) : List Nat :=
  let padded := sha256Pad msg
  ((processBlocksAux (padded.length / 64) sha256H0 padded).map
    (fun wrd => [(wrd >>> 24) % 256, (wrd >>> 16) % 256, (wrd >>> 8) % 256,
      wrd % 256])).flatten

/-- Lower-case hex digit. -/
def hexDigitChar (n : Nat) : Char :=
  if n < 10 then Char.ofNat (48 + n) else Char.ofNat (87 + n)

/-- Go `hex.EncodeToString`. -/
def hexEncode (bs : List Nat) : String :=
  String.mk ((bs.map fun b => [hexDigitChar (b / 16), hexDigitChar (b % 16)]).flatten)

/-- UTF-8 encoding of one character (Go strings are UTF-8 bytes). -/
def utf8EncodeChar (c : Char) : List Nat :=
  let n := c.toNat
  if n < 128 then [n]
  else if n < 2048 then [192 + n / 64, 128 + n % 64]
  else if n < 65536 then [224 + n / 4096, 128 + (n / 64) % 64, 128 + n % 64]
  else [240 + n / 262144, 128 + (n / 4096) % 64, 128 + (n / 64) % 64, 128 + n % 64]

/-- The UTF-8 bytes of a string. -/
def utf8Bytes (s : String) : List Nat := (s.data.map utf8EncodeChar).flatten

/-- Source `GenerateKey` (internal/cache/http_cache.go): the builder writes
`METHOD`, `":"`, `URL.String()`, and then appends `":" + Accept` and
`":" + Accept-Encoding` only when those header values are nonempty; the
key is the hex SHA-256 of the built string. -/
def GenerateKey (r : GoRequest) : String :=
  let b1 := r.method ++ ":" ++ r.url.render
  let b2 := if r.header.get "Accept" ≠ "" then b1 ++ ":" ++ r.header.get "Accept"
    else b1
  let b3 := if r.header.get "Accept-Encoding" ≠ "" then
      b2 ++ ":" ++ r.header.get "Accept-Encoding"
    else b2
  hexEncode (sha256 (utf8Bytes b3))

/-- The key exactly as the claim words it: both `":"` separators present
even when `Accept` or `Accept-Encoding` is absent. -/
def generateKeyClaim (r : GoRequest) : String :=
  hexEncode (sha256 (utf8Bytes (r.method ++ ":" ++ r.url.render ++ ":" ++
    r.header.get "Accept" ++ ":" ++ r.header.get "Accept-Encoding")))

/-- C5, counterexample to the claim as stated: for a GET request with no
`Accept` and no `Accept-Encoding` header, the source hashes
`"GET:http://example.com/path"` while the claim prescribes hashing
`"GET:http://example.com/path::"`; the two keys differ. -/
theorem C5_counterexample :
    GenerateKey
        { method := "GET", url := ⟨"http", "example.com", "/path", ""⟩,
          host := "example.com", header := [], body := [] } ≠
      generateKeyClaim
        { method := "GET", url := ⟨"http", "example.com", "/path", ""⟩,
          host := "example.com", header := [], body := [] } ∧
    Header.get ([] : Header) "Accept" = "" ∧
    Header.get ([] : Header) "Accept-Encoding" = "" := by
  refine ⟨by decide, rfl, rfl⟩

theorem string_eq_of_data {a b : String} (h : a.data = b.data) : a = b := by
  cases a
  cases b
  cases h
  rfl

/-- C5 (amended).  Cache key derivation: the key is the hex-encoded SHA-256
of `METHOD ∥ ":" ∥ URL`, extended by `":" ∥ Accept` only when the `Accept`
header value is nonempty and by `":" ∥ Accept-Encoding` only when that
value is nonempty; when both headers are present (nonempty) this coincides
with the claimed canonical string with both separators. -/
theorem C5_generate_key (r : GoRequest) :
    GenerateKey r = hexEncode (sha256 (utf8Bytes (r.method ++ ":" ++ r.url.render ++
      (if r.header.get "Accept" ≠ "" then ":" ++ r.header.get "Accept" else "") ++
      (if r.header.get "Accept-Encoding" ≠ "" then
        ":" ++ r.header.get "Accept-Encoding" else "")))) ∧
    (r.header.get "Accept" ≠ "" → r.header.get "Accept-Encoding" ≠ "" →
      GenerateKey r = generateKeyClaim r) := by
  have hkey : ∀ a b : String, a.data = b.data →
      hexEncode (sha256 (utf8Bytes a)) = hexEncode (sha256 (utf8Bytes b)) :=
    fun a b h => congrArg _ (congrArg _ (congrArg _ (string_eq_of_data h)))
  constructor
  · simp only [GenerateKey]
    by_cases h1 : r.header.get "Accept" ≠ "" <;>
      by_cases h2 : r.header.get "Accept-Encoding" ≠ "" <;>
      simp only [h1, h2, if_true, if_false, ite_not, ite_true, ite_false] <;>
      refine hkey _ _ ?_ <;>
      simp [String.data_append]
  · intro h1 h2
    simp only [GenerateKey, generateKeyClaim, if_pos h1, if_pos h2]

/-- C5, witness: with both headers present the key matches the claimed
canonical form. -/
theorem C5_generate_key_witness :
    (Header.get [("Accept", ["text/html"]), ("Accept-Encoding", ["gzip"])]
        "Accept" ≠ "" ∧
      Header.get [("Accept", ["text/html"]), ("Accept-Encoding", ["gzip"])]
        "Accept-Encoding" ≠ "") ∧
    GenerateKey
        { method := "GET", url := ⟨"http", "example.com", "/path", ""⟩,
          host := "example.com",
          header := [("Accept", ["text/html"]), ("Accept-Encoding", ["gzip"])],
          body := [] } =
      generateKeyClaim
        { method := "GET", url := ⟨"http", "example.com", "/path", ""⟩,
          host := "example.com",
          header := [("Accept", ["text/html"]), ("Accept-Encoding", ["gzip"])],
          body := [] } :=
  ⟨⟨by decide, by decide⟩,
    (C5_generate_key
      { method := "GET", url := ⟨"http", "example.com", "/path", ""⟩,
        host := "example.com",
        header := [("Accept", ["text/html"]), ("Accept-Encoding", ["gzip"])],
        body := [] }).2 (by decide) (by decide)⟩

/-! ## Hop-by-hop header stripping (claim C9)

The repository contains two divergent plain-HTTP handlers
(internal/proxy/server.go): `Server.handleHTTP`, which calls
`removeHopHeaders` before cloning the request, and
`ProxyServer.handleHTTP`, which copies every client header into the
outbound request with no stripping. -/

/-- The hop-by-hop header list of source `removeHopHeaders`, in Go's
canonical MIME forms (the wire header `TE` canonicalizes to `Te`, which is
what the source deletes). -/
def hopHeaders : List String :=
  ["Connection", "Proxy-Connection", "Keep-Alive", "Proxy-Authenticate",
   "Proxy-Authorization", "Te", "Trailer", "Transfer-Encoding", "Upgrade"]

/-- Source `removeHopHeaders`: `h.Del(header)` for each hop-by-hop name. -/
def removeHopHeaders (h : Header) : Header :=
  hopHeaders.foldl Header.del h

/-- The outbound request built by `Server.handleHTTP` (the variant that
strips): headers are the client headers after `removeHopHeaders`; an empty
URL scheme defaults to `http` and an empty URL host to `r.Host`; method and
body are the client's. -/
def serverOutbound (r : GoRequest) : GoRequest :=
  { method := r.method
    url := { scheme := if r.url.scheme = "" then "http" else r.url.scheme
             host := if r.url.host = "" then r.host else r.url.host
             path := r.url.path
             rawQuery := r.url.rawQuery }
    host := r.host
    header := removeHopHeaders r.header
    body := r.body }

/-- The outbound request built by `ProxyServer.handleHTTP` (the variant the
claim cites): `http.NewRequest(r.Method, r.URL.String(), r.Body)` followed
by a loop copying every client header — no hop-by-hop stripping. -/
def proxyServerOutbound (r : GoRequest) : GoRequest :=
  { method := r.method
    url := r.url
    host := r.url.host
    header := r.header
    body := r.body }

/-- C9, counterexample to the claim as stated: `ProxyServer.handleHTTP`
forwards the hop-by-hop `Connection` header unchanged, so it is not the
case that every request forwarded by the proxy is free of hop-by-hop
headers. -/
theorem C9_counterexample :
    (proxyServerOutbound
        { method := "GET", url := ⟨"http", "example.com", "/", ""⟩,
          host := "example.com", header := [("Connection", ["keep-alive"])],
          body := [] }).header.hasKey "Connection" = true ∧
      "Connection" ∈ hopHeaders ∧
      (serverOutbound
        { method := "GET", url := ⟨"http", "example.com", "/", ""⟩,
          host := "example.com", header := [("Connection", ["keep-alive"])],
          body := [] }).header.hasKey "Connection" = false := by
  decide

/-- Helper: `Header.hasKey` finds a pair with the key. -/
theorem headerHasKey_iff {h : Header} {k : String} :
    h.hasKey k = true ↔ ∃ p ∈ h, p.1 = k := by
  simp [Header.hasKey, List.any_eq_true, beq_iff_eq]

/-- Helper: folding `Header.del` over a key list is a filter on keys. -/
theorem foldl_del_eq_filter (ks : List String) :
    ∀ h : Header, ks.foldl Header.del h =
      h.filter (fun p => ! ks.contains p.1) := by
  induction ks with
  | nil =>
    intro h
    simp [Header.del]
  | cons k rest ih =>
    intro h
    have : (k :: rest).foldl Header.del h = rest.foldl Header.del (Header.del h k) :=
      rfl
    rw [this, ih (Header.del h k)]
    show (h.filter (fun p => decide (p.1 ≠ k))).filter (fun p => ! rest.contains p.1) = _
    rw [List.filter_filter]
    refine List.filter_congr ?_
    intro p _
    by_cases hk : p.1 = k
    · simp [hk]
    · simp [hk]

/-- C9 (amended).  Hop-by-hop stripping: the `Server.handleHTTP` variant
(the one that calls `removeHopHeaders`) forwards no hop-by-hop header —
its outbound headers are exactly the client headers with the nine
hop-by-hop keys removed — while method and body pass unchanged, and for an
absolute-form request (nonempty scheme and host) the URL passes unchanged.
The `ProxyServer.handleHTTP` variant copies all client headers, including
hop-by-hop ones, unchanged. -/
theorem C9_hop_by_hop (r : GoRequest) :
    (∀ k ∈ hopHeaders, (serverOutbound r).header.hasKey k = false) ∧
    (serverOutbound r).header =
      r.header.filter (fun p => ! hopHeaders.contains p.1) ∧
    (serverOutbound r).method = r.method ∧
    (serverOutbound r).body = r.body ∧
    (r.url.scheme ≠ "" → r.url.host ≠ "" → (serverOutbound r).url = r.url) ∧
    (proxyServerOutbound r).header = r.header ∧
    (proxyServerOutbound r).method = r.method ∧
    (proxyServerOutbound r).url = r.url ∧
    (proxyServerOutbound r).body = r.body := by
  have hfilter : (serverOutbound r).header =
      r.header.filter (fun p => ! hopHeaders.contains p.1) :=
    foldl_del_eq_filter hopHeaders r.header
  refine ⟨?_, hfilter, rfl, rfl, ?_, rfl, rfl, rfl, rfl⟩
  · intro k hk
    rw [hfilter]
    rcases hb : Header.hasKey (r.header.filter (fun p => ! hopHeaders.contains p.1)) k
      with _ | _
    · rfl
    · exfalso
      rcases headerHasKey_iff.mp hb with ⟨p, hp, hpk⟩
      have hnc := (List.mem_filter.mp hp).2
      rw [hpk] at hnc
      simp only [Bool.not_eq_true'] at hnc
      have hmemc : hopHeaders.contains k = true := by
        simpa using hk
      rw [hmemc] at hnc
      cases hnc
  · intro hs hh
    simp only [serverOutbound, if_neg hs, if_neg hh]

/-- C9, witness: for a concrete absolute-form request the stripped outbound
URL is the client URL. -/
theorem C9_hop_by_hop_witness :
    ((URL.mk "http" "example.com" "/" "").scheme ≠ "" ∧
      (URL.mk "http" "example.com" "/" "").host ≠ "") ∧
    (serverOutbound
        { method := "GET", url := ⟨"http", "example.com", "/", ""⟩,
          host := "example.com", header := [("Connection", ["keep-alive"])],
          body := [] }).url =
      ({ method := "GET", url := ⟨"http", "example.com", "/", ""⟩,
          host := "example.com", header := [("Connection", ["keep-alive"])],
          body := [] } : GoRequest).url :=
  ⟨⟨by decide, by decide⟩,
    (C9_hop_by_hop
      { method := "GET", url := ⟨"http", "example.com", "/", ""⟩,
        host := "example.com", header := [("Connection", ["keep-alive"])],
        body := [] }).2.2.2.2.1 (by decide) (by decide)⟩

/-! ## Certificate single-flight (claim C6)

Source `CertManager.GetCertificate` (internal/cert/manager.go) for a fixed
hostname H: `certMap.Load(H)`; on a hit, return the cached certificate; on
a miss, `generateCertificate(H)` (an RSA key generation plus an X.509
signing — the "signing event") and then `certMap.Store(H, cert)` and return
the freshly generated certificate.  There is no lock and no re-check
between the miss and the store.  The interleaving of any number of callers
is modelled as a small transition system: each caller is a thread whose
atomic steps are exactly the `Load`, the generate, and the
`Store`-and-return. -/

/-- Program counter of one `GetCertificate(H)` caller: before the `Load`;
after a missed `Load`; holding a freshly generated identity; returned. -/
inductive ThreadPC where
  | start
  | missed
  | haveCert (id : Nat)
  | done (ret : Nat)
deriving DecidableEq, Repr

/-- Shared state plus all thread states.  `published` is the `certMap`
entry for H, `signings` counts `generateCertificate` calls, and `nextId`
is a fresh-identity source distinguishing distinct certificate objects. -/
structure CertConfig where
  published : Option Nat
  signings : Nat
  nextId : Nat
  pcs : Nat → ThreadPC

/-- All callers are about to call `GetCertificate`. -/
def certInit : CertConfig :=
  { published := none, signings := 0, nextId := 0, pcs := fun _ => ThreadPC.start }

/-- One atomic step of thread `i`: a `Load` hit returns the cached
identity; a `Load` miss proceeds; generation mints a fresh identity and
counts one signing; the store publishes the own identity (overwriting any
previous store, as `sync.Map.Store` does) and returns it.  A finished
thread does nothing. -/
def certStep (cfg : CertConfig) (i : Nat) : CertConfig :=
  match cfg.pcs i with
  | .start =>
    match cfg.published with
    | some c => { cfg with pcs := Function.update cfg.pcs i (.done c) }
    | none => { cfg with pcs := Function.update cfg.pcs i .missed }
  | .missed =>
    { cfg with
        pcs := Function.update cfg.pcs i (.haveCert cfg.nextId)
        signings := cfg.signings + 1
        nextId := cfg.nextId + 1 }
  | .haveCert id =>
    { cfg with published := some id, pcs := Function.update cfg.pcs i (.done id) }
  | .done _ => cfg

/-- Run a schedule (a list of thread indices, each entry one atomic step of
that thread). -/
def certRun (sched : List Nat) : CertConfig :=
  sched.foldl certStep certInit

/-- C6, counterexample to the claim as stated: under the interleaving
T0-load-miss, T0-generate, T1-load-miss, T1-generate, T0-store, T1-store,
both of two concurrent callers for the same hostname sign (two signing
events), they return distinct certificate objects, and caller 0 returns an
identity different from the one eventually published. -/
theorem C6_counterexample :
    (certRun [0, 0, 1, 1, 0, 1]).signings = 2 ∧
    (certRun [0, 0, 1, 1, 0, 1]).pcs 0 = ThreadPC.done 0 ∧
    (certRun [0, 0, 1, 1, 0, 1]).pcs 1 = ThreadPC.done 1 ∧
    (certRun [0, 0, 1, 1, 0, 1]).published = some 1 ∧
    ThreadPC.done 0 ≠ ThreadPC.done 1 := by
  refine ⟨by decide, by decide, by decide, by decide, by decide⟩

/-- Helper: a returned thread keeps its return value under any further
steps. -/
theorem certStep_done_stable :
    ∀ (l : List Nat) (cfg : CertConfig) (i : Nat) (r : Nat),
      cfg.pcs i = ThreadPC.done r → (l.foldl certStep cfg).pcs i = ThreadPC.done r := by
  intro l
  induction l with
  | nil =>
    intro cfg i r h
    exact h
  | cons j rest ih =>
    intro cfg i r h
    refine ih (certStep cfg j) i r ?_
    by_cases hij : i = j
    · subst hij
      rw [certStep, h]
      exact h
    · rcases hpj : cfg.pcs j with _ | _ | id | ret <;>
        simp only [certStep, hpj] <;>
        first
        | (rcases hpub : cfg.published with _ | c <;>
            simp only [Function.update, dif_neg fun hc => hij (by simpa using hc)] <;>
            exact h)
        | (simp only [Function.update, dif_neg fun hc => hij (by simpa using hc)]
           exact h)
        | exact h

/-- The invariant of the one-signing phase: the first caller's identity 0
is published, exactly one signing happened, and every thread is either not
yet started or returned with identity 0. -/
def certInv (cfg : CertConfig) : Prop :=
  cfg.published = some 0 ∧ cfg.signings = 1 ∧
    ∀ i, cfg.pcs i = ThreadPC.start ∨ cfg.pcs i = ThreadPC.done 0

theorem certStep_preserves_inv {cfg : CertConfig} (h : certInv cfg) (j : Nat) :
    certInv (certStep cfg j) ∧ (certStep cfg j).pcs j = ThreadPC.done 0 := by
  obtain ⟨hpub, hsig, hpcs⟩ := h
  rcases hpc : cfg.pcs j with _ | _ | id | ret
  · have hstep : certStep cfg j =
        { cfg with pcs := Function.update cfg.pcs j (ThreadPC.done 0) } := by
      simp only [certStep, hpc, hpub]
    rw [hstep]
    refine ⟨⟨hpub, hsig, ?_⟩, ?_⟩
    · intro i
      by_cases hij : i = j
      · subst hij
        right
        simp [Function.update]
      · rcases hpcs i with h2 | h2 <;> [left; right] <;>
          simpa [Function.update, hij] using h2
    · simp [Function.update]
  · rcases hpcs j with h2 | h2 <;> rw [hpc] at h2 <;> cases h2
  · rcases hpcs j with h2 | h2 <;> rw [hpc] at h2 <;> cases h2
  · have hret : ret = 0 := by
      rcases hpcs j with h2 | h2 <;> rw [hpc] at h2
      · cases h2
      · cases h2
        rfl
    subst hret
    have hstep : certStep cfg j = cfg := by
      simp only [certStep, hpc]
    rw [hstep]
    exact ⟨⟨hpub, hsig, hpcs⟩, hpc⟩

theorem certRun_inv_phase :
    ∀ (l : List Nat) (cfg : CertConfig), certInv cfg →
      certInv (l.foldl certStep cfg) ∧
        ∀ i ∈ l, (l.foldl certStep cfg).pcs i = ThreadPC.done 0 := by
  intro l
  induction l with
  | nil =>
    intro cfg h
    exact ⟨h, fun i hi => absurd hi (List.not_mem_nil i)⟩
  | cons j rest ih =>
    intro cfg h
    have hstep := certStep_preserves_inv h j
    have hrest := ih (certStep cfg j) hstep.1
    refine ⟨hrest.1, ?_⟩
    intro i hi
    rcases List.mem_cons.mp hi with rfl | hi2
    · exact certStep_done_stable rest (certStep cfg i) i 0 hstep.2
    · exact hrest.2 i hi2

/-- A schedule that runs the `GetCertificate` calls without overlap: thread
0 runs its three steps to completion, then threads `1 .. n` each take their
single load-hit step. -/
def certSeqSchedule (n : Nat) : List Nat :=
  0 :: 0 :: 0 :: (List.range n).map (· + 1)

/-- C6 (amended).  Certificate single-flight holds only for non-overlapping
calls: when the calls for hostname H run sequentially (thread 0 completes
before threads 1..n start), exactly one signing event occurs, the first
caller's certificate is published, and every caller returns that same
identity.  Under concurrent interleavings the claim fails: callers that
miss together each sign, and a caller can return an identity different
from the eventually published one — see the counterexample. -/
theorem C6_single_flight (n : Nat) :
    (certRun (certSeqSchedule n)).signings = 1 ∧
    (certRun (certSeqSchedule n)).published = some 0 ∧
    (certRun (certSeqSchedule n)).pcs 0 = ThreadPC.done 0 ∧
    (∀ i : Nat, 1 ≤ i → i ≤ n → (certRun (certSeqSchedule n)).pcs i = ThreadPC.done 0) := by
  have hbase : certInv (certRun [0, 0, 0]) ∧
      (certRun [0, 0, 0]).pcs 0 = ThreadPC.done 0 := by
    refine ⟨⟨by decide, by decide, ?_⟩, by decide⟩
    intro i
    by_cases hi : i = 0
    · subst hi
      right
      decide
    · left
      simp [certRun, certStep, certInit, Function.update, hi]
  have hsplit : certRun (certSeqSchedule n) =
      ((List.range n).map (· + 1)).foldl certStep (certRun [0, 0, 0]) := rfl
  have hmain := certRun_inv_phase ((List.range n).map (· + 1)) (certRun [0, 0, 0])
    hbase.1
  rw [hsplit]
  refine ⟨hmain.1.2.1, hmain.1.1, ?_, ?_⟩
  · exact certStep_done_stable _ _ 0 0 hbase.2
  · intro i h1 h2
    refine hmain.2 i ?_
    refine List.mem_map.mpr ⟨i - 1, ?_, by omega⟩
    exact List.mem_range.mpr (by omega)

/-- C6, witness: three sequential callers all return the published
identity after a single signing. -/
theorem C6_single_flight_witness :
    ((1 : Nat) ≤ 2 ∧ (2 : Nat) ≤ 2) ∧
    (certRun (certSeqSchedule 2)).pcs 2 = ThreadPC.done 0 ∧
    (certRun (certSeqSchedule 2)).signings = 1 :=
  ⟨⟨by decide, by decide⟩, (C6_single_flight 2).2.2.2 2 (by decide) (by decide),
    (C6_single_flight 2).1⟩

/-! ## Leaf certificate minting (claim C7)

Source `CertManager.generateCertificate` builds the X.509 template for a
hostname; the cryptographic key generation and signature are outside the
shallow embedding, but every attribute of the template is pure data.  Go
`time.Time` is modelled in broken-down civil form (proleptic Gregorian). -/

/-- A Go `time.Time` instant: year, month (1-12), day (1-daysInMonth), and
nanosecond within the day. -/
structure GoTime where
  year : Int
  month : Int
  day : Int
  nsec : Int
deriving DecidableEq, Repr

/-- Gregorian leap year. -/
def isLeapYear (y : Int) : Bool :=
  (y % 4 = 0 ∧ y % 100 ≠ 0) ∨ y % 400 = 0

/-- Days in a month. -/
def daysInMonth (y m : Int) : Int :=
  if m = 2 then (if isLeapYear y then 29 else 28)
  else if m = 4 ∨ m = 6 ∨ m = 9 ∨ m = 11 then 30
  else 31

/-- A real instant: fields in range. -/
def GoTime.Valid (t : GoTime) : Prop :=
  1 ≤ t.month ∧ t.month ≤ 12 ∧ 1 ≤ t.day ∧ t.day ≤ daysInMonth t.year t.month ∧
    0 ≤ t.nsec ∧ t.nsec < 86400000000000

instance (t : GoTime) : Decidable t.Valid :=
  inferInstanceAs (Decidable (_ ∧ _))

/-- One-based day of the year. -/
def dayOfYear (y m d : Int) : Int :=
  (if m ≤ 1 then 0
   else if m ≤ 2 then 31
   else
     (if isLeapYear y then 1 else 0) +
       (if m ≤ 3 then 59
        else if m ≤ 4 then 90
        else if m ≤ 5 then 120
        else if m ≤ 6 then 151
        else if m ≤ 7 then 181
        else if m ≤ 8 then 212
        else if m ≤ 9 then 243
        else if m ≤ 10 then 273
        else if m ≤ 11 then 304
        else 334)) + d

/-- Leap years strictly before year `y`. -/
def leapsBefore (y : Int) : Int :=
  (y - 1) / 4 - (y - 1) / 100 + (y - 1) / 400

/-- Days since the Unix epoch (1970-01-01) of a civil date. -/
def daysFromCivil (y m d : Int) : Int :=
  365 * (y - 1970) + (leapsBefore y - leapsBefore 1970) + dayOfYear y m d - 1

/-- Go `Time.Unix()`: seconds since the epoch. -/
def GoTime.unixSec (t : GoTime) : Int :=
  86400 * daysFromCivil t.year t.month t.day + t.nsec / 1000000000

/-- Nanoseconds since the epoch (the chronological order on instants). -/
def GoTime.unixNano (t : GoTime) : Int :=
  86400000000000 * daysFromCivil t.year t.month t.day + t.nsec

/-- Go `t.AddDate(1, 0, 0)`: the same month and day of the next year, with
`Date`'s normalization taking Feb 29 of a leap year to Mar 1 when the
target year is not leap. -/
def addOneYear (t : GoTime) : GoTime :=
  if t.month = 2 ∧ t.day = 29 ∧ isLeapYear (t.year + 1) = false then
    { t with year := t.year + 1, month := 3, day := 1 }
  else
    { t with year := t.year + 1 }

/-- The claim's `now - 1h` (validity is claimed to start one hour before
mint time); borrows across day, month and year boundaries. -/
def oneHourBefore (t : GoTime) : GoTime :=
  if 3600000000000 ≤ t.nsec then
    { t with nsec := t.nsec - 3600000000000 }
  else if 2 ≤ t.day then
    { t with day := t.day - 1, nsec := t.nsec + 86400000000000 - 3600000000000 }
  else if 2 ≤ t.month then
    { t with month := t.month - 1, day := daysInMonth t.year (t.month - 1), nsec := t.nsec + 86400000000000 - 3600000000000 }
  else
    { t with year := t.year - 1, month := 12, day := 31, nsec := t.nsec + 86400000000000 - 3600000000000 }

/-- X.509 key usage bits set by the source. -/
inductive KeyUsage where
  | digitalSignature
  | keyEncipherment
  | certSign
deriving DecidableEq, Repr

/-- X.509 extended key usages set by the source. -/
inductive ExtKeyUsage where
  | serverAuth
  | clientAuth
deriving DecidableEq, Repr

/-- The data of the `x509.Certificate` template built by
`generateCertificate`. -/
structure CertTemplate where
  serialNumber : Int
  organization : List String
  commonName : String
  dnsNames : List String
  notBefore : GoTime
  notAfter : GoTime
  keyUsage : List KeyUsage
  extKeyUsage : List ExtKeyUsage
deriving DecidableEq, Repr

/-- Source `CertManager.generateCertificate` template for `hostname` at
mint instant `now`: serial = `big.NewInt(time.Now().Unix())` (seconds),
subject CN = hostname, SAN DNS = [hostname], `NotBefore = time.Now()`,
`NotAfter = time.Now().AddDate(1, 0, 0)`, key usage
digitalSignature|keyEncipherment, ext key usage [serverAuth]. -/
def generateCertificateTemplate (hostname : String) (now : GoTime) : CertTemplate :=
  { serialNumber := now.unixSec
    organization := ["4ebur-net MITM"]
    commonName := hostname
    dnsNames := [hostname]
    notBefore := now
    notAfter := addOneYear now
    keyUsage := [KeyUsage.digitalSignature, KeyUsage.keyEncipherment]
    extKeyUsage := [ExtKeyUsage.serverAuth] }

/-- C7, counterexample to the claim as stated: the minted template's
`NotBefore` is the mint time itself, not one hour earlier; and the serial
is the Unix-second timestamp, so two leaves minted for different hostnames
within the same second share a serial — it is not unique within the CA's
lifetime. -/
theorem C7_counterexample :
    (generateCertificateTemplate "example.com"
        ⟨2024, 6, 15, 43200000000000⟩).notBefore ≠
      oneHourBefore ⟨2024, 6, 15, 43200000000000⟩ ∧
    (⟨2024, 6, 15, 43200000000000⟩ : GoTime) ≠ ⟨2024, 6, 15, 43200500000000⟩ ∧
    (generateCertificateTemplate "a.example"
        ⟨2024, 6, 15, 43200000000000⟩).serialNumber =
      (generateCertificateTemplate "b.example"
        ⟨2024, 6, 15, 43200500000000⟩).serialNumber ∧
    ("a.example" : String) ≠ "b.example" := by
  refine ⟨by decide, by decide, by decide, by decide⟩

set_option maxHeartbeats 1000000 in
/-- Helper: moving to the next year changes the day-of-year number by at
most one (the leap adjustment). -/
theorem dayOfYear_succ_bound (y m d : Int) :
    dayOfYear y m d - 1 ≤ dayOfYear (y + 1) m d ∧
      dayOfYear (y + 1) m d ≤ dayOfYear y m d + 1 := by
  unfold dayOfYear
  split_ifs <;> omega

/-- Helper: one more year adds at most one leap day. -/
theorem leapsBefore_succ_bound (y : Int) :
    0 ≤ leapsBefore (y + 1) - leapsBefore y ∧
      leapsBefore (y + 1) - leapsBefore y ≤ 1 := by
  unfold leapsBefore
  omega

/-- Helper: Feb 29 and the following Mar 1 of a non-leap year are both day
60 of their years. -/
theorem feb29_doy (y : Int) (h : isLeapYear (y + 1) = false) :
    dayOfYear (y + 1) 3 1 = 60 ∧ dayOfYear y 2 29 = 60 := by
  unfold dayOfYear
  rw [h]
  norm_num

/-- Helper: adding a calendar year strictly advances the instant. -/
theorem unixNano_lt_addOneYear (t : GoTime) :
    t.unixNano < (addOneYear t).unixNano := by
  have hleaps := leapsBefore_succ_bound t.year
  have hdays : daysFromCivil t.year t.month t.day <
      daysFromCivil (addOneYear t).year (addOneYear t).month (addOneYear t).day := by
    by_cases hfeb : t.month = 2 ∧ t.day = 29 ∧ isLeapYear (t.year + 1) = false
    · have hy : (addOneYear t).year = t.year + 1 := by
        rw [addOneYear, if_pos hfeb]
      have hm3 : (addOneYear t).month = 3 := by
        rw [addOneYear, if_pos hfeb]
      have hd1 : (addOneYear t).day = 1 := by
        rw [addOneYear, if_pos hfeb]
      rw [hy, hm3, hd1, hfeb.1, hfeb.2.1]
      have hdoy := feb29_doy t.year hfeb.2.2
      unfold daysFromCivil
      omega
    · have hy : (addOneYear t).year = t.year + 1 := by
        rw [addOneYear, if_neg hfeb]
      have hm : (addOneYear t).month = t.month := by
        rw [addOneYear, if_neg hfeb]
      have hd : (addOneYear t).day = t.day := by
        rw [addOneYear, if_neg hfeb]
      rw [hy, hm, hd]
      have hdoy := dayOfYear_succ_bound t.year t.month t.day
      unfold daysFromCivil
      omega
  have h1 : (addOneYear t).nsec = t.nsec := by
    unfold addOneYear
    split_ifs <;> rfl
  unfold GoTime.unixNano
  rw [h1]
  omega

/-- C7 (amended).  Leaf certificate attributes: every minted leaf template
has subject CN equal to the hostname, SAN DNS names exactly `[hostname]`,
key usage {digital signature, key encipherment}, extended key usage
{server auth}, a validity interval from the mint time itself (not one hour
before) to one calendar year after (so the interval contains the mint
instant), and a serial number equal to the Unix-second timestamp of the
mint time — which is not unique across mints within the same second (see
the counterexample). -/
theorem C7_leaf_certificate (hostname : String) (now : GoTime)
    (hv : now.Valid) :
    (generateCertificateTemplate hostname now).commonName = hostname ∧
    (generateCertificateTemplate hostname now).dnsNames = [hostname] ∧
    (generateCertificateTemplate hostname now).keyUsage =
      [KeyUsage.digitalSignature, KeyUsage.keyEncipherment] ∧
    (generateCertificateTemplate hostname now).extKeyUsage =
      [ExtKeyUsage.serverAuth] ∧
    (generateCertificateTemplate hostname now).notBefore = now ∧
    (generateCertificateTemplate hostname now).notAfter = addOneYear now ∧
    (generateCertificateTemplate hostname now).notBefore.unixNano ≤ now.unixNano ∧
    now.unixNano < (generateCertificateTemplate hostname now).notAfter.unixNano ∧
    (generateCertificateTemplate hostname now).serialNumber = now.unixSec := by
  refine ⟨rfl, rfl, rfl, rfl, rfl, rfl, le_refl _, ?_, rfl⟩
  exact unixNano_lt_addOneYear now

/-- C7, witness: the amended attributes at a concrete valid mint time. -/
theorem C7_leaf_certificate_witness :
    (⟨2024, 6, 15, 43200000000000⟩ : GoTime).Valid ∧
    ((generateCertificateTemplate "example.com"
        ⟨2024, 6, 15, 43200000000000⟩).commonName = "example.com" ∧
      (generateCertificateTemplate "example.com"
        ⟨2024, 6, 15, 43200000000000⟩).dnsNames = ["example.com"] ∧
      (⟨2024, 6, 15, 43200000000000⟩ : GoTime).unixNano <
        (generateCertificateTemplate "example.com"
          ⟨2024, 6, 15, 43200000000000⟩).notAfter.unixNano) := by
  have h := C7_leaf_certificate "example.com" ⟨2024, 6, 15, 43200000000000⟩
    (by decide)
  exact ⟨by decide, h.1, h.2.1, h.2.2.2.2.2.2.2.1⟩

end FourEburNet
